import Mathlib

/-!
Verification development for the `avm` multi-tool version manager.

The definitions below are a shallow embedding of the Rust sources:

* `src/lib.rs` — mirror rewriting (`HttpClient::get`), the process-wide
  cancellation flag (`set_cancelled` / `is_cancelled`) and
  `CancellableFuture::poll`;
* `src/io/mod.rs` — `ArchiveType::from_path` and the download/extract
  state machine `DownloadExtractState`;
* `src/io/blocking.rs` — `TmpDir` drop semantics, `check_is_link`,
  `set_alias_tag`, `list_tags`, `extract_archive`;
* `src/tool/general_tool.rs` — `InstallArgs::install`,
  `InstallCustomAction::on_extracted`, `delete_tag`;
* `src/tool/general_tool/{go,node,liberica}.rs` — the version grammars,
  comparators, filters and `get_down_info`.

Rust byte/character strings are modelled as `List Char` (all the data the
claims touch is ASCII, where Rust's byte indexing and character indexing
agree); `u32` values are modelled as `Nat` with the explicit range check
of `u32::from_str` where a parse occurs.  Error messages are Lean
`String`s.  Filesystem state is modelled as a flat association list of
entries of the per-tool directory, which is the shape the tag store
actually uses (concrete tag directories and alias links at one level).
-/

namespace Avm

/-! ### Generic comparison helpers

`natCompare` models `Ord::cmp` on Rust `u32` values, and `cmpNatList`
models the lexicographic field-by-field comparison generated by Rust's
`derive(Ord)` on a struct whose fields are all integers. -/

def natCompare (a b : Nat) : Ordering :=
  if a < b then .lt else if b < a then .gt else .eq

theorem natCompare_self (a : Nat) : natCompare a a = .eq := by
  unfold natCompare
  simp

theorem natCompare_lt_iff (a b : Nat) : natCompare a b = .lt ↔ a < b := by
  unfold natCompare
  split <;> rename_i h1
  · simpa using h1
  · split <;> rename_i h2
    · constructor
      · intro h; exact absurd h (by decide)
      · intro h; exact absurd h h1
    · constructor
      · intro h; exact absurd h (by decide)
      · intro h; exact absurd h h1

theorem natCompare_gt_iff (a b : Nat) : natCompare a b = .gt ↔ b < a := by
  unfold natCompare
  split <;> rename_i h1
  · constructor
    · intro h; exact absurd h (by decide)
    · intro h; exact absurd h (by omega)
  · split <;> rename_i h2
    · simpa using h2
    · constructor
      · intro h; exact absurd h (by decide)
      · intro h; exact absurd h h2

theorem natCompare_eq_iff (a b : Nat) : natCompare a b = .eq ↔ a = b := by
  constructor
  · intro h
    by_contra hne
    unfold natCompare at h
    rcases Nat.lt_or_ge a b with h1 | h1
    · rw [if_pos h1] at h; exact Ordering.noConfusion h
    · have h2 : b < a := by omega
      rw [if_neg (by omega), if_pos h2] at h; exact Ordering.noConfusion h
  · rintro rfl; exact natCompare_self a

def cmpNatList : List Nat → List Nat → Ordering
  | [], [] => .eq
  | [], _ :: _ => .lt
  | _ :: _, [] => .gt
  | a :: as, b :: bs => (natCompare a b).then (cmpNatList as bs)

theorem ordering_then_eq_gt (x y : Ordering) :
    x.then y = .gt ↔ x = .gt ∨ (x = .eq ∧ y = .gt) := by
  cases x <;> simp [Ordering.then]

theorem ordering_then_eq_lt (x y : Ordering) :
    x.then y = .lt ↔ x = .lt ∨ (x = .eq ∧ y = .lt) := by
  cases x <;> simp [Ordering.then]

theorem ordering_then_eq_eq (x y : Ordering) :
    x.then y = .eq ↔ x = .eq ∧ y = .eq := by
  cases x <;> simp [Ordering.then]

theorem cmpNatList_self (l : List Nat) : cmpNatList l l = .eq := by
  induction l with
  | nil => rfl
  | cons a as ih => simp [cmpNatList, natCompare_self, Ordering.then, ih]

theorem cmpNatList_eq_iff (a b : List Nat) : cmpNatList a b = .eq ↔ a = b := by
  induction a generalizing b with
  | nil => cases b <;> simp [cmpNatList]
  | cons x xs ih =>
    cases b with
    | nil => simp [cmpNatList]
    | cons y ys =>
      simp [cmpNatList, ordering_then_eq_eq, natCompare_eq_iff, ih]

theorem cmpNatList_swap (a b : List Nat) :
    cmpNatList b a = (cmpNatList a b).swap := by
  induction a generalizing b with
  | nil => cases b <;> rfl
  | cons x xs ih =>
    cases b with
    | nil => rfl
    | cons y ys =>
      simp only [cmpNatList, ih ys]
      have hsw : natCompare y x = (natCompare x y).swap := by
        rcases Nat.lt_trichotomy x y with h | h | h
        · rw [(natCompare_lt_iff x y).mpr h, (natCompare_gt_iff y x).mpr h]; rfl
        · subst h; rw [natCompare_self]; rfl
        · rw [(natCompare_gt_iff x y).mpr h, (natCompare_lt_iff y x).mpr h]; rfl
      rw [hsw]
      cases natCompare x y <;> cases cmpNatList xs ys <;> rfl

theorem cmpNatList_cons_le_iff (a b : Nat) (as bs : List Nat) :
    cmpNatList (a :: as) (b :: bs) ≠ .gt ↔
      (a < b ∨ (a = b ∧ cmpNatList as bs ≠ .gt)) := by
  simp only [cmpNatList, ne_eq, ordering_then_eq_gt, not_or, not_and,
    natCompare_gt_iff, natCompare_eq_iff]
  constructor
  · rintro ⟨h1, h2⟩
    rcases Nat.lt_trichotomy a b with h | h | h
    · exact Or.inl h
    · exact Or.inr ⟨h, h2 h⟩
    · exact absurd h h1
  · rintro (h | ⟨rfl, h⟩)
    · exact ⟨by omega, fun he => absurd he (by omega)⟩
    · exact ⟨by omega, fun _ => h⟩

theorem cmpNatList_le_trans {a b c : List Nat}
    (hab : cmpNatList a b ≠ .gt) (hbc : cmpNatList b c ≠ .gt) :
    cmpNatList a c ≠ .gt := by
  induction a generalizing b c with
  | nil => cases c <;> simp [cmpNatList]
  | cons x xs ih =>
    cases b with
    | nil => simp [cmpNatList] at hab
    | cons y ys =>
      cases c with
      | nil => simp [cmpNatList] at hbc
      | cons z zs =>
        rw [cmpNatList_cons_le_iff] at hab hbc ⊢
        rcases hab with h1 | ⟨rfl, h1⟩
        · rcases hbc with h2 | ⟨rfl, h2⟩
          · exact Or.inl (by omega)
          · exact Or.inl h1
        · rcases hbc with h2 | ⟨rfl, h2⟩
          · exact Or.inl h2
          · exact Or.inr ⟨rfl, ih h1 h2⟩

theorem cmpNatList_le_total (a b : List Nat) :
    cmpNatList a b ≠ .gt ∨ cmpNatList b a ≠ .gt := by
  rw [cmpNatList_swap a b]
  rcases cmpNatList a b with _ | _ | _ <;> simp [Ordering.swap]

/-! ### List/character helpers shared by the string-processing code -/

/-- Model of Rust `str::strip_prefix`: returns the remainder when the
first argument is a prefix of the second. -/
def dropPre? : List Char → List Char → Option (List Char)
  | [], s => some s
  | _ :: _, [] => none
  | p :: ps, c :: cs => if p = c then dropPre? ps cs else none

theorem dropPre?_eq_some {p s r : List Char} (h : dropPre? p s = some r) :
    s = p ++ r := by
  induction p generalizing s with
  | nil => simpa [dropPre?] using h
  | cons x xs ih =>
    cases s with
    | nil => simp [dropPre?] at h
    | cons c cs =>
      by_cases hx : x = c
      · subst hx
        simp only [dropPre?, if_pos rfl] at h
        simpa using ih h
      · simp [dropPre?, hx] at h

theorem dropPre?_append (p r : List Char) : dropPre? p (p ++ r) = some r := by
  induction p with
  | nil => rfl
  | cons x xs ih => simp [dropPre?, ih]

theorem dropPre?_isSome_iff (p s : List Char) :
    (dropPre? p s).isSome = true ↔ ∃ r, s = p ++ r := by
  constructor
  · intro h
    rcases Option.isSome_iff_exists.mp h with ⟨r, hr⟩
    exact ⟨r, dropPre?_eq_some hr⟩
  · rintro ⟨r, rfl⟩
    simp [dropPre?_append]

/-! ### Claim C7 — mirror rewriting (`HttpClient::get`, src/lib.rs:52-64)

The client walks the configured mirror entries in order and applies the
first entry whose `from` field is a prefix of the requested URL; the
rewritten URL is `to` followed by the remainder of the URL.  If no entry
matches, the URL is used verbatim.  The result is returned immediately:
there is no second rewriting pass. -/

/-- One `{from, to}` mirror rule (struct `UrlMirrorEntry`).  The Rust
field names `from`/`to` are Lean keywords, hence `fromUrl`/`toUrl`. -/
structure UrlMirrorEntry where
  fromUrl : List Char
  toUrl : List Char
deriving DecidableEq

/-- Model of `HttpClient::get`'s URL rewriting loop. -/
def mirrorGet : List UrlMirrorEntry → List Char → List Char
  | [], url => url
  | e :: rest, url =>
    match dropPre? e.fromUrl url with
    | some remainder => e.toUrl ++ remainder
    | none => mirrorGet rest url

/-- Claim C7: if some rule's `from` is a prefix of the URL, the outgoing
URL is the first such rule's `to` concatenated with the remainder after
the prefix, applied exactly once; if no rule matches, the URL is
unchanged. -/
theorem mirror_rewrite_first_match (rules : List UrlMirrorEntry) (url : List Char) :
    (∀ e : UrlMirrorEntry,
      rules.find? (fun e => (dropPre? e.fromUrl url).isSome) = some e →
        mirrorGet rules url = e.toUrl ++ url.drop e.fromUrl.length) ∧
    (rules.find? (fun e => (dropPre? e.fromUrl url).isSome) = none →
        mirrorGet rules url = url) := by
  induction rules with
  | nil => simp [mirrorGet]
  | cons r rest ih =>
    constructor
    · intro e he
      rcases h : dropPre? r.fromUrl url with _ | rem
      · rw [List.find?_cons_of_neg] at he
        · have := ih.1 e he
          simpa [mirrorGet, h] using this
        · simp [h]
      · rw [List.find?_cons_of_pos] at he
        · cases he
          have hurl := dropPre?_eq_some h
          subst hurl
          simp [mirrorGet, dropPre?_append, List.drop_left]
        · simp [h]
    · intro hn
      rcases h : dropPre? r.fromUrl url with _ | rem
      · rw [List.find?_cons_of_neg] at hn
        · simpa [mirrorGet, h] using ih.2 hn
        · simp [h]
      · rw [List.find?_cons_of_pos] at hn
        · cases hn
        · simp [h]

/-- Witness for C7 at a concrete rule list and URL: the first matching
rule (and only it) is applied. -/
theorem mirror_rewrite_first_match_witness :
    mirrorGet
      [⟨"https://a.example/".toList, "https://m1.example/".toList⟩,
       ⟨"https://b.example/".toList, "https://m2.example/".toList⟩]
      "https://b.example/file.zip".toList
      = "https://m2.example/".toList ++
          "https://b.example/file.zip".toList.drop "https://b.example/".toList.length := by
  exact (mirror_rewrite_first_match
    [⟨"https://a.example/".toList, "https://m1.example/".toList⟩,
     ⟨"https://b.example/".toList, "https://m2.example/".toList⟩]
    "https://b.example/file.zip".toList).1
    ⟨"https://b.example/".toList, "https://m2.example/".toList⟩ (by decide)

/-! ### Claim C10 — cancellation flag and `CancellableFuture` (src/lib.rs:75-113)

The flag `CANCELLED` is a process-global boolean, initially false.  The
only operation in the crate that writes it is `set_cancelled`, which
stores `true`; `is_cancelled` merely loads it.  We model the flag as a
`Bool` threaded through the operations that may touch it: `FlagOp` is
the alphabet of flag-relevant events, where `untouched` stands for any
operation of the program other than `set_cancelled` (no code path stores
`false` into the flag). -/

/-- Model of `set_cancelled` (stores `true`, src/lib.rs:77-79). -/
def set_cancelled (_ : Bool) : Bool := true

/-- Model of `is_cancelled` (loads the flag, src/lib.rs:81-83). -/
def is_cancelled (flag : Bool) : Bool := flag

inductive FlagOp
  | setCancelled
  | untouched

/-- Effect of one event on the cancellation flag. -/
def FlagOp.apply : FlagOp → Bool → Bool
  | .setCancelled, flag => set_cancelled flag
  | .untouched, flag => flag

def runFlagOps (ops : List FlagOp) (flag : Bool) : Bool :=
  ops.foldl (fun st op => op.apply st) flag

/-- Result of polling a future once. -/
inductive PollResult (α : Type)
  | Ready (a : α)
  | Pending

/-- Model of `CancellableFuture::poll` (src/lib.rs:101-112): if the flag
is set, resolve to `none` immediately; otherwise poll the inner future
and wrap its output in `some`. -/
def cancellableFuturePoll {α : Type} (flag : Bool) (innerPoll : Unit → PollResult α) :
    PollResult (Option α) :=
  if is_cancelled flag then .Ready none
  else
    match innerPoll () with
    | .Ready out => .Ready (some out)
    | .Pending => .Pending

theorem runFlagOps_true (ops : List FlagOp) : runFlagOps ops true = true := by
  induction ops with
  | nil => rfl
  | cons op rest ih =>
    cases op <;> simpa [runFlagOps, FlagOp.apply, set_cancelled, List.foldl] using ih

/-- Claim C10: once `set_cancelled` has run, `is_cancelled` returns
`true` after every later sequence of events (no operation resets the
flag), and a `CancellableFuture` polled with the flag set resolves to
`Ready none` whatever its inner future would do — in particular the
result does not depend on `innerPoll`, which models that the inner
future is not polled. -/
theorem cancellation_sticky_and_absorbing :
    ∀ (flag0 : Bool) (later : List FlagOp) {α : Type} (innerPoll : Unit → PollResult α),
      is_cancelled (runFlagOps later (set_cancelled flag0)) = true ∧
      cancellableFuturePoll (runFlagOps later (set_cancelled flag0)) innerPoll =
        .Ready none := by
  intro flag0 later α innerPoll
  have hrun : runFlagOps later (set_cancelled flag0) = true := runFlagOps_true later
  refine ⟨by simp [hrun, is_cancelled], ?_⟩
  simp [cancellableFuturePoll, hrun, is_cancelled]

/-! ### Claim C8 — the Go version comparator is a total order
(src/tool/general_tool/go.rs:277-302)

`PreRelease` and `GoVersion` derive Rust `Ord`; for an enum that is the
declaration order of the variants (`Beta < Rc < None`) refined by the
variant's fields, and for a struct the lexicographic field order
(major, minor, patch, pre_release). -/

inductive PreRelease
  | Beta (n : Nat)
  | Rc (n : Nat)
  | None
deriving DecidableEq

/-- Model of the `Ord` instance Rust derives for `PreRelease`. -/
def PreRelease.cmp : PreRelease → PreRelease → Ordering
  | .Beta a, .Beta b => natCompare a b
  | .Beta _, .Rc _ => .lt
  | .Beta _, .None => .lt
  | .Rc _, .Beta _ => .gt
  | .Rc a, .Rc b => natCompare a b
  | .Rc _, .None => .lt
  | .None, .Beta _ => .gt
  | .None, .Rc _ => .gt
  | .None, .None => .eq

def PreRelease.rank : PreRelease → Nat
  | .Beta _ => 0
  | .Rc _ => 1
  | .None => 2

def PreRelease.num : PreRelease → Nat
  | .Beta n => n
  | .Rc n => n
  | .None => 0

theorem ordering_eq_then (y : Ordering) : Ordering.eq.then y = y := rfl

theorem ordering_then_right_eq (x : Ordering) : x.then .eq = x := by
  cases x <;> rfl

theorem PreRelease.cmp_eq_rank_num (a b : PreRelease) :
    a.cmp b = cmpNatList [a.rank, a.num] [b.rank, b.num] := by
  cases a <;> cases b <;>
    simp only [cmp, rank, num, cmpNatList] <;>
    first
      | decide
      | (rw [natCompare_self, ordering_eq_then, ordering_then_right_eq])
      | (rw [(by decide : natCompare 0 1 = .lt)]; rfl)
      | (rw [(by decide : natCompare 1 0 = .gt)]; rfl)
      | (rw [(by decide : natCompare 0 2 = .lt)]; rfl)
      | (rw [(by decide : natCompare 2 0 = .gt)]; rfl)
      | (rw [(by decide : natCompare 1 2 = .lt)]; rfl)
      | (rw [(by decide : natCompare 2 1 = .gt)]; rfl)

theorem PreRelease.rank_num_inj {a b : PreRelease}
    (h1 : a.rank = b.rank) (h2 : a.num = b.num) : a = b := by
  cases a <;> cases b <;> simp_all [rank, num]

structure GoVersion where
  major : Nat
  minor : Nat
  patch : Nat
  pre_release : PreRelease
deriving DecidableEq

/-- Model of the `Ord` instance Rust derives for `GoVersion`
(lexicographic over major, minor, patch, pre_release). -/
def GoVersion.cmp (a b : GoVersion) : Ordering :=
  (natCompare a.major b.major).then
    ((natCompare a.minor b.minor).then
      ((natCompare a.patch b.patch).then (a.pre_release.cmp b.pre_release)))

def GoVersion.key (v : GoVersion) : List Nat :=
  [v.major, v.minor, v.patch, v.pre_release.rank, v.pre_release.num]

theorem GoVersion.cmp_eq_goKey (a b : GoVersion) :
    a.cmp b = cmpNatList a.key b.key := by
  rw [cmp, key, key, PreRelease.cmp_eq_rank_num]
  simp only [cmpNatList]

theorem GoVersion.key_inj {a b : GoVersion} (h : a.key = b.key) : a = b := by
  cases a; cases b
  simp only [key, List.cons.injEq, and_true] at h
  obtain ⟨h1, h2, h3, h4, h5⟩ := h
  have := PreRelease.rank_num_inj h4 h5
  simp_all

/-- Rust `PartialOrd::le` derived from `Ord::cmp`. -/
def GoVersion.le (a b : GoVersion) : Prop := a.cmp b ≠ .gt

/-- Rust `PartialOrd::lt` derived from `Ord::cmp`. -/
def GoVersion.lt (a b : GoVersion) : Prop := a.cmp b = .lt

theorem GoVersion.cmp_swap (a b : GoVersion) : b.cmp a = (a.cmp b).swap := by
  rw [cmp_eq_goKey, cmp_eq_goKey, cmpNatList_swap]

theorem GoVersion.le_refl (a : GoVersion) : a.le a := by
  rw [le, cmp_eq_goKey, cmpNatList_self]
  decide

theorem GoVersion.le_antisymm {a b : GoVersion} (h1 : a.le b) (h2 : b.le a) :
    a = b := by
  rw [le, cmp_swap] at h2
  apply key_inj
  rw [← cmpNatList_eq_iff, ← cmp_eq_goKey]
  rw [le] at h1
  rcases h : a.cmp b with _ | _ | _
  · rw [h] at h2; exact absurd rfl h2
  · rfl
  · exact absurd h h1

theorem GoVersion.le_trans {a b c : GoVersion} (h1 : a.le b) (h2 : b.le c) :
    a.le c := by
  rw [le, cmp_eq_goKey] at h1 h2 ⊢
  exact cmpNatList_le_trans h1 h2

theorem GoVersion.le_total (a b : GoVersion) : a.le b ∨ b.le a := by
  rw [le, le, cmp_swap a b]
  cases hab : a.cmp b <;> simp [hab, Ordering.swap]

/-- Claim C8: the Go parsed-version comparator is a total order
(reflexive, antisymmetric, transitive, total), pre-releases at a fixed
(major, minor, patch) are ordered `beta N < rc M < final` for all
N, M ≥ 1, and `Beta`/`Rc` are each ordered internally by their number. -/
theorem go_version_total_order :
    (∀ a : GoVersion, a.le a) ∧
    (∀ a b : GoVersion, a.le b → b.le a → a = b) ∧
    (∀ a b c : GoVersion, a.le b → b.le c → a.le c) ∧
    (∀ a b : GoVersion, a.le b ∨ b.le a) ∧
    (∀ ma mi pa N M : Nat, 1 ≤ N → 1 ≤ M →
      GoVersion.lt ⟨ma, mi, pa, .Beta N⟩ ⟨ma, mi, pa, .Rc M⟩ ∧
      GoVersion.lt ⟨ma, mi, pa, .Rc M⟩ ⟨ma, mi, pa, .None⟩) ∧
    (∀ ma mi pa n m : Nat, n < m →
      GoVersion.lt ⟨ma, mi, pa, .Beta n⟩ ⟨ma, mi, pa, .Beta m⟩ ∧
      GoVersion.lt ⟨ma, mi, pa, .Rc n⟩ ⟨ma, mi, pa, .Rc m⟩) := by
  refine ⟨GoVersion.le_refl, fun a b => GoVersion.le_antisymm,
    fun a b c => GoVersion.le_trans, GoVersion.le_total, ?_, ?_⟩
  · intro ma mi pa N M _ _
    constructor <;>
      simp [GoVersion.lt, GoVersion.cmp, natCompare_self, PreRelease.cmp, Ordering.then]
  · intro ma mi pa n m hnm
    constructor <;>
      simp [GoVersion.lt, GoVersion.cmp, natCompare_self, PreRelease.cmp,
        Ordering.then, natCompare_lt_iff, hnm]

/-- Witness for C8 at concrete versions (the shape of `go1.19beta1`,
`go1.19rc2` and `go1.19`): applies the order theorem with its hypotheses
discharged. -/
theorem go_version_total_order_witness :
    GoVersion.lt ⟨1, 19, 0, .Beta 1⟩ ⟨1, 19, 0, .Rc 2⟩ ∧
    GoVersion.lt ⟨1, 19, 0, .Rc 2⟩ ⟨1, 19, 0, .None⟩ ∧
    GoVersion.lt ⟨1, 19, 0, .Beta 1⟩ ⟨1, 19, 0, .Beta 2⟩ ∧
    GoVersion.le ⟨1, 19, 0, .Beta 1⟩ ⟨1, 19, 0, .None⟩ ∧
    (⟨1, 19, 0, .None⟩ : GoVersion) = ⟨1, 19, 0, .None⟩ := by
  obtain ⟨hrefl, hanti, htrans, htot, hpre, hnum⟩ := go_version_total_order
  refine ⟨(hpre 1 19 0 1 2 (by decide) (by decide)).1,
    (hpre 1 19 0 1 2 (by decide) (by decide)).2,
    (hnum 1 19 0 1 2 (by decide)).1,
    htrans ⟨1, 19, 0, .Beta 1⟩ ⟨1, 19, 0, .Rc 2⟩ ⟨1, 19, 0, .None⟩
      (by show GoVersion.cmp _ _ ≠ .gt; decide)
      (by show GoVersion.cmp _ _ ≠ .gt; decide),
    hanti _ _ (hrefl _) (hrefl _)⟩

/-! ### String utilities shared by the version parsers

These model the Rust standard-library string operations the parsers use:
`char::is_ascii_digit`, `u32::from_str` (optional leading `+`, one or
more ASCII digits, range check), `str::split`, `str::find` (byte index
of the first occurrence of a substring) and the ASCII fragment of
`str::to_lowercase`. -/

def isDigitChar (c : Char) : Bool := decide ('0' ≤ c ∧ c ≤ '9')

def digitVal (c : Char) : Nat := c.toNat - 48

def parseDigitsAux : List Char → Nat → Option Nat
  | [], acc => some acc
  | c :: cs, acc =>
    if isDigitChar c then parseDigitsAux cs (acc * 10 + digitVal c) else none

/-- Sign handling of `u32::from_str`: strip one optional leading `+`. -/
def stripPlus (s : List Char) : List Char :=
  match s with
  | c :: rest => if c = '+' then rest else s
  | [] => s

def parseU32 (s : List Char) : Option Nat :=
  match stripPlus s with
  | [] => none
  | c :: cs =>
    match parseDigitsAux (c :: cs) 0 with
    | some v => if v < 4294967296 then some v else none
    | none => none

/-- Model of Rust `str::split(sep)`: always at least one piece; an empty
input yields one empty piece. -/
def splitChar (sep : Char) : List Char → List (List Char)
  | [] => [[]]
  | c :: cs =>
    if c = sep then [] :: splitChar sep cs
    else
      match splitChar sep cs with
      | h :: t => (c :: h) :: t
      | [] => [[c]]

theorem splitChar_ne_nil (sep : Char) (s : List Char) : splitChar sep s ≠ [] := by
  cases s with
  | nil => simp [splitChar]
  | cons c cs =>
    simp only [splitChar]
    split
    · simp
    · rcases splitChar sep cs with _ | ⟨h, t⟩ <;> simp

theorem splitChar_mem_subset (sep : Char) (s : List Char) :
    ∀ p ∈ splitChar sep s, ∀ c ∈ p, c ∈ s := by
  induction s with
  | nil =>
    intro p hp c hc
    simp only [splitChar, List.mem_singleton] at hp
    subst hp
    simp at hc
  | cons x xs ih =>
    intro p hp c hc
    by_cases hx : x = sep
    · simp only [splitChar, if_pos hx] at hp
      rw [List.mem_cons] at hp
      rcases hp with hp | hp
      · subst hp; simp at hc
      · exact List.mem_cons_of_mem x (ih p hp c hc)
    · rcases hr : splitChar sep xs with _ | ⟨h, t⟩
      · exact absurd hr (splitChar_ne_nil sep xs)
      · simp only [splitChar, if_neg hx, hr] at hp
        rw [List.mem_cons] at hp
        rcases hp with hp | hp
        · subst hp
          rcases List.mem_cons.mp hc with hc | hc
          · subst hc; simp
          · exact List.mem_cons_of_mem x
              (ih h (by rw [hr]; exact List.mem_cons_self h t) c hc)
        · exact List.mem_cons_of_mem x
            (ih p (by rw [hr]; exact List.mem_cons_of_mem h hp) c hc)

/-- Model of Rust `str::find(needle)`: index of the first occurrence. -/
def findSub? (needle : List Char) : List Char → Option Nat
  | [] => if needle = [] then some 0 else none
  | c :: cs =>
    if needle.isPrefixOf (c :: cs) then some 0
    else (findSub? needle cs).map (· + 1)

/-- ASCII fragment of `str::to_lowercase` at character level: `A`-`Z`
map to `a`-`z`, everything else is kept.  (Rust applies the full Unicode
mapping; the code only ever asks whether the lowercased string starts
with the ASCII characters `8u`, where the two mappings agree.) -/
def charToLowerAscii (c : Char) : Char :=
  if 'A' ≤ c ∧ c ≤ 'Z' then Char.ofNat (c.toNat + 32) else c

theorem char_toNat_ofNat {n : Nat} (h : n.isValidChar) : (Char.ofNat n).toNat = n := by
  unfold Char.ofNat
  rw [dif_pos h]
  rfl

theorem charToLowerAscii_eq_eight {c : Char} (h : charToLowerAscii c = '8') :
    c = '8' := by
  unfold charToLowerAscii at h
  split at h
  · rename_i hc
    exfalso
    rcases hc with ⟨h1, h2⟩
    rw [Char.le_def] at h1 h2
    have h65 : 65 ≤ c.toNat := h1
    have h90 : c.toNat ≤ 90 := h2
    have hv : (c.toNat + 32).isValidChar := Or.inl (by omega)
    have ht := congrArg Char.toNat h
    rw [char_toNat_ofNat hv] at ht
    have h8 : ('8' : Char).toNat = 56 := rfl
    rw [h8] at ht
    omega
  · exact h

theorem stripPlus_subset (l : List Char) : ∀ c ∈ stripPlus l, c ∈ l := by
  intro c hc
  cases l with
  | nil => simp [stripPlus] at hc
  | cons x xs =>
    simp only [stripPlus] at hc
    split at hc
    · exact List.mem_cons_of_mem x hc
    · exact hc

theorem parseU32_of_no_digit {l : List Char} (h : ∀ c ∈ l, isDigitChar c = false) :
    parseU32 l = none := by
  unfold parseU32
  cases hst : stripPlus l with
  | nil => rfl
  | cons c cs =>
    have hcd : isDigitChar c = false :=
      h c (stripPlus_subset l c (by rw [hst]; simp))
    simp only [parseDigitsAux, hcd, Bool.false_eq_true, if_false]

/-! ### Version grammars (src/tool/general_tool/{go,node,liberica}.rs)

`parse_go_version` and `parse_node_version` reject malformed labels with
an error; `JdkVersion::parse` never fails and substitutes 0 for every
missing or unparseable numeric component. -/

/-- Pre-release detection step of `parse_go_version`
(go.rs:363-386): find `beta`/`rc`, require a number after it. -/
def goPreSplit (raw : List Char) : Except String (List Char × PreRelease) :=
  match findSub? "beta".toList raw with
  | some idx =>
    let num_str := raw.drop (idx + 4)
    if num_str = [] then .error "missing number after beta"
    else
      match parseU32 num_str with
      | some n => .ok (raw.take idx, .Beta n)
      | none => .error "invalid beta number"
  | none =>
    match findSub? "rc".toList raw with
    | some idx =>
      let num_str := raw.drop (idx + 2)
      if num_str = [] then .error "missing number after rc"
      else
        match parseU32 num_str with
        | some n => .ok (raw.take idx, .Rc n)
        | none => .error "invalid rc number"
    | none => .ok (raw, .None)

/-- Model of `str::starts_with('.')`. -/
def startsWithDot : List Char → Bool
  | c :: _ => decide (c = '.')
  | [] => false

/-- Main-part step of `parse_go_version` (go.rs:388-429): split on `.`,
at most (major, minor, patch), minor and patch defaulting to 0; empty
parts, extra parts, or number-parse failures are errors. -/
def goMainParse (main_part : List Char) : Except String (Nat × Nat × Nat) :=
  match splitChar '.' main_part with
  | [] => .error "missing major version number"
  | major_str :: rest =>
    if major_str = [] ∧ startsWithDot main_part = true then
      .error "major version part is empty"
    else
      match parseU32 major_str with
      | none => .error "invalid major version"
      | some major =>
        match rest with
        | [] => .ok (major, 0, 0)
        | minor_str :: rest2 =>
          if minor_str = [] then .error "minor version part is empty"
          else
            match parseU32 minor_str with
            | none => .error "invalid minor version"
            | some minor =>
              match rest2 with
              | [] => .ok (major, minor, 0)
              | patch_str :: rest3 =>
                if patch_str = [] then .error "patch version part is empty"
                else
                  match parseU32 patch_str with
                  | none => .error "invalid patch version"
                  | some patch =>
                    if rest3 = [] then .ok (major, minor, patch)
                    else .error "too many version parts"

/-- Model of `parse_go_version` (go.rs:350-440). -/
def parse_go_version (s : List Char) : Except String (List Char × GoVersion) :=
  match dropPre? "go".toList s with
  | none => .error "does not start with go"
  | some raw_version =>
    if raw_version = [] then .error "no version part after go"
    else
      match goPreSplit raw_version with
      | .error e => .error e
      | .ok (main_part, pre_release) =>
        match goMainParse main_part with
        | .error e => .error e
        | .ok (major, minor, patch) =>
          .ok (raw_version, ⟨major, minor, patch, pre_release⟩)

structure NodeVersion where
  major : Nat
  minor : Nat
  patch : Nat
deriving DecidableEq

/-- Model of the `Ord` instance Rust derives for `NodeVersion`
(node.rs:268-273, lexicographic over major, minor, patch). -/
def NodeVersion.cmp (a b : NodeVersion) : Ordering :=
  (natCompare a.major b.major).then
    ((natCompare a.minor b.minor).then (natCompare a.patch b.patch))

def NodeVersion.key (v : NodeVersion) : List Nat := [v.major, v.minor, v.patch]

theorem NodeVersion.cmp_eq_nodeKey (a b : NodeVersion) :
    a.cmp b = cmpNatList a.key b.key := by
  rw [cmp, key, key]
  simp only [cmpNatList, ordering_then_right_eq]

/-- Model of `parse_node_version` (node.rs:318-354): strip an optional
`v`, require exactly three dot-separated decimal components. -/
def parse_node_version (s : List Char) : Except String (List Char × NodeVersion) :=
  let raw_version := match s with
    | 'v' :: rest => rest
    | _ => s
  if raw_version = [] then .error "no version part"
  else
    match splitChar '.' raw_version with
    | [ma, mi, pa] =>
      match parseU32 ma with
      | none => .error "invalid major version"
      | some major =>
        match parseU32 mi with
        | none => .error "invalid minor version"
        | some minor =>
          match parseU32 pa with
          | none => .error "invalid patch version"
          | some patch => .ok (raw_version, ⟨major, minor, patch⟩)
    | _ => .error "invalid version format"

structure JdkVersion where
  major : Nat
  minor : Nat
  security : Nat
  patch : Nat
  build : Nat
deriving DecidableEq

/-- Model of the `Ord` instance Rust derives for `JdkVersion`
(liberica.rs:447-454, lexicographic over major, minor, security, patch,
build). -/
def JdkVersion.cmp (a b : JdkVersion) : Ordering :=
  (natCompare a.major b.major).then
    ((natCompare a.minor b.minor).then
      ((natCompare a.security b.security).then
        ((natCompare a.patch b.patch).then (natCompare a.build b.build))))

def JdkVersion.key (v : JdkVersion) : List Nat :=
  [v.major, v.minor, v.security, v.patch, v.build]

theorem JdkVersion.cmp_eq_jdkKey (a b : JdkVersion) :
    a.cmp b = cmpNatList a.key b.key := by
  rw [cmp, key, key]
  simp only [cmpNatList, ordering_then_right_eq]

/-- Test of `version.to_lowercase().starts_with("8u")`
(liberica.rs:464): since the ASCII lowercase mapping works character by
character, the lowercased string starts with `8u` exactly when the
first two characters lowercase to `8` and `u`. -/
def lowerStarts8u (version : List Char) : Bool :=
  match version with
  | c1 :: c2 :: _ => decide (charToLowerAscii c1 = '8' ∧ charToLowerAscii c2 = 'u')
  | _ => false

/-- Component read `parts.get(i)` + `parse().unwrap_or(0)`, the initial
value 0 being kept when the component is missing (liberica.rs:469-494). -/
def jdkNum (parts : List (List Char)) (i : Nat) : Nat :=
  match parts.get? i with
  | some v => (parseU32 v).getD 0
  | none => 0

/-- Build component: second piece of the `+`-split, `parse().unwrap_or(0)`,
0 when absent (liberica.rs:472-480). -/
def jdkBuild (parts : List (List Char)) : Nat :=
  match parts with
  | _ :: b :: _ => (parseU32 b).getD 0
  | _ => 0

/-- First piece of the `+`-split (`parts.next().unwrap_or("")`,
liberica.rs:477). -/
def jdkHead (parts : List (List Char)) : List Char :=
  match parts with
  | p :: _ => p
  | [] => []

/-- Model of `JdkVersion::parse` (liberica.rs:456-505).  The Rust
function is infallible: every numeric component is read with
`parse().unwrap_or(0)` and missing components keep their initial 0.  In
the `8u` grammar the security number is the first `+`-piece
(`jdkNum parts 0`, since `split` always yields a first piece). -/
def JdkVersion.parse (version : List Char) : JdkVersion :=
  if lowerStarts8u version then
    let parts := splitChar '+' (version.drop 2)
    ⟨8, 0, jdkNum parts 0, 0, jdkBuild parts⟩
  else
    let parts := splitChar '+' version
    let nums := splitChar '.' (jdkHead parts)
    ⟨jdkNum nums 0, jdkNum nums 1, jdkNum nums 2, jdkNum nums 3, jdkBuild parts⟩

theorem jdkNum_zero {parts : List (List Char)}
    (h : ∀ p ∈ parts, ∀ c ∈ p, isDigitChar c = false) (i : Nat) :
    jdkNum parts i = 0 := by
  unfold jdkNum
  cases hg : parts.get? i with
  | none => rfl
  | some v =>
    show (parseU32 v).getD 0 = 0
    rw [parseU32_of_no_digit (h v (List.get?_mem hg))]
    rfl

theorem jdkBuild_zero {parts : List (List Char)}
    (h : ∀ p ∈ parts, ∀ c ∈ p, isDigitChar c = false) :
    jdkBuild parts = 0 := by
  unfold jdkBuild
  rcases parts with _ | ⟨a, _ | ⟨b, rest⟩⟩
  · rfl
  · rfl
  · show (parseU32 b).getD 0 = 0
    rw [parseU32_of_no_digit (h b (by simp))]
    rfl

theorem jdkHead_mem_or (parts : List (List Char)) :
    jdkHead parts ∈ parts ∨ jdkHead parts = [] := by
  cases parts with
  | nil => exact Or.inr rfl
  | cons p rest => exact Or.inl (List.mem_cons_self p rest)

/-- Claim C9: the Liberica version parser is a total function.  In this
embedding `JdkVersion.parse` has type `List Char → JdkVersion` because
the Rust function returns `Self` with no error path (every numeric read
is `parse().unwrap_or(0)`); the final conjunct records that totality.
On a label with no ASCII digit at all — in particular the empty or an
entirely non-numeric label — every component falls back to 0, whereas
the Go and Node parsers reject such a label with an error. -/
theorem liberica_parse_never_fails (s : List Char)
    (h : ∀ c ∈ s, isDigitChar c = false) :
    JdkVersion.parse s = ⟨0, 0, 0, 0, 0⟩ ∧
    JdkVersion.parse [] = ⟨0, 0, 0, 0, 0⟩ ∧
    (∃ e, parse_go_version "not-a-version".toList = .error e) ∧
    (∃ e, parse_node_version "not-a-version".toList = .error e) ∧
    (∀ t : List Char, ∃ v : JdkVersion, JdkVersion.parse t = v) := by
  refine ⟨?_, rfl, ⟨"does not start with go", rfl⟩,
    ⟨"invalid version format", rfl⟩, fun t => ⟨JdkVersion.parse t, rfl⟩⟩
  have h8 : lowerStarts8u s = false := by
    cases s with
    | nil => rfl
    | cons c1 rest =>
      cases rest with
      | nil => rfl
      | cons c2 rest2 =>
        simp only [lowerStarts8u, decide_eq_false_iff_not]
        rintro ⟨hl, -⟩
        have hc1 : c1 = '8' := charToLowerAscii_eq_eight hl
        subst hc1
        exact absurd (h '8' (List.mem_cons_self _ _)) (by decide)
  have hparts : ∀ p ∈ splitChar '+' s, ∀ c ∈ p, isDigitChar c = false :=
    fun p hp c hc => h c (splitChar_mem_subset '+' s p hp c hc)
  have hhead : ∀ c ∈ jdkHead (splitChar '+' s), isDigitChar c = false := by
    rcases jdkHead_mem_or (splitChar '+' s) with hm | hm
    · exact hparts _ hm
    · rw [hm]; intro c hc; simp at hc
  have hnums : ∀ p ∈ splitChar '.' (jdkHead (splitChar '+' s)),
      ∀ c ∈ p, isDigitChar c = false :=
    fun p hp c hc => hhead c (splitChar_mem_subset _ _ p hp c hc)
  unfold JdkVersion.parse
  simp only [h8, Bool.false_eq_true, if_false]
  rw [jdkNum_zero hnums 0, jdkNum_zero hnums 1, jdkNum_zero hnums 2,
    jdkNum_zero hnums 3, jdkBuild_zero hparts]

/-- Witness for C9 at the entirely non-numeric label `abc`. -/
theorem liberica_parse_never_fails_witness :
    JdkVersion.parse "abc".toList = ⟨0, 0, 0, 0, 0⟩ ∧
    JdkVersion.parse [] = ⟨0, 0, 0, 0, 0⟩ ∧
    (∃ e, parse_go_version "not-a-version".toList = .error e) ∧
    (∃ e, parse_node_version "not-a-version".toList = .error e) ∧
    (∀ t : List Char, ∃ v : JdkVersion, JdkVersion.parse t = v) :=
  liberica_parse_never_fails "abc".toList (by decide)

/-! ### Claim C3 — archive-type detection and extraction
(src/io/mod.rs:18-31, src/io/blocking.rs:191-249) -/

inductive ArchiveType
  | Zip
  | TarGz
  | TarXz
deriving DecidableEq

/-- Model of `ArchiveType::from_path`: byte-suffix checks on the path,
in source order `.zip`, `.tar.gz`, `.tar.xz`; anything else is the
"unknown archive type" error. -/
def ArchiveType.from_path (path : List Char) : Except String ArchiveType :=
  if ".zip".toList.isSuffixOf path then .ok .Zip
  else if ".tar.gz".toList.isSuffixOf path then .ok .TarGz
  else if ".tar.xz".toList.isSuffixOf path then .ok .TarXz
  else .error "unknown archive type"

/-- The two extraction strategies implemented by `extract_archive`. -/
inductive ExtractMethod
  | zipPerEntry
  | tarGzUnpack
deriving DecidableEq

/-- The arms of the `match archive_type` in `extract_archive`
(blocking.rs:198-246).  The source matches on `ArchiveType` with arms
for `Zip` (per-entry writes plus Unix mode bits) and `TarGz`
(`GzDecoder` + `tar::Archive::unpack`, which restores permissions and
timestamps) only: the `TarXz` variant of the very enum being matched
has no arm, so no extraction behavior is defined for it. -/
def extract_archive_arm : ArchiveType → Option ExtractMethod
  | .Zip => some .zipPerEntry
  | .TarGz => some .tarGzUnpack
  | .TarXz => none

theorem suffix_exclusive {u v p : List Char} (hu : u.isSuffixOf p = true)
    (hv : v <:+ u → False) (hlen : v.length ≤ u.length) :
    v.isSuffixOf p = false := by
  rw [List.isSuffixOf_iff_suffix] at hu
  by_contra hcon
  rw [Bool.not_eq_false, List.isSuffixOf_iff_suffix] at hcon
  rcases List.suffix_or_suffix_of_suffix hcon hu with h | h
  · exact hv h
  · have huv : u = v := List.IsSuffix.eq_of_length h (by have := h.length_le; omega)
    subst huv
    exact hv (List.suffix_refl _)

/-- Claim C3 (code bug): detection is total exactly on the three
suffixes and maps every `.tar.xz` path to `TarXz`, but `extract_archive`
has no match arm for `TarXz`, so extraction of a detected tar.xz archive
is not implemented (while `.zip` and `.tar.gz` are handled). -/
theorem tar_xz_detected_but_unhandled :
    (∀ p : List Char, ".tar.xz".toList.isSuffixOf p = true →
        ArchiveType.from_path p = .ok .TarXz) ∧
    (∀ p : List Char,
      (∃ t, ArchiveType.from_path p = .ok t) ↔
        (".zip".toList.isSuffixOf p = true ∨
         ".tar.gz".toList.isSuffixOf p = true ∨
         ".tar.xz".toList.isSuffixOf p = true)) ∧
    ArchiveType.from_path "node-v20.11.1-linux-x64.tar.xz".toList = .ok .TarXz ∧
    extract_archive_arm .TarXz = none ∧
    extract_archive_arm .Zip = some .zipPerEntry ∧
    extract_archive_arm .TarGz = some .tarGzUnpack := by
  refine ⟨?_, ?_, rfl, rfl, rfl, rfl⟩
  · intro p hxz
    have hz : ".zip".toList.isSuffixOf p = false :=
      suffix_exclusive hxz (by decide) (by decide)
    have hg : ".tar.gz".toList.isSuffixOf p = false :=
      suffix_exclusive hxz (by decide) (by decide)
    unfold ArchiveType.from_path
    rw [hz, hg, hxz]
    rfl
  · intro p
    unfold ArchiveType.from_path
    rcases hz : ".zip".toList.isSuffixOf p with _ | _ <;>
      rcases hg : ".tar.gz".toList.isSuffixOf p with _ | _ <;>
        rcases hx : ".tar.xz".toList.isSuffixOf p with _ | _ <;>
          simp

/-! ### Tag store (src/io/blocking.rs, src/tool/general_tool.rs)

The per-tool directory contains concrete tag directories and alias
links side by side (no nesting), so its state is a flat association
list from entry name to entry.  Names are `List Char`. -/

/-- One entry of the tool directory: a concrete install directory
(`content` stands for its recursive contents) or a symbolic link /
junction whose target is a sibling tag name. -/
inductive FsEntry
  | dir (content : Nat)
  | link (target : List Char)
deriving DecidableEq

abbrev Store := List (List Char × FsEntry)

def lookupE (store : Store) (name : List Char) : Option FsEntry :=
  (store.find? (fun p => p.1 == name)).map (fun p => p.2)

def eraseEntry (store : Store) (name : List Char) : Store :=
  store.filter (fun p => !(p.1 == name))

def setEntry (store : Store) (name : List Char) (e : FsEntry) : Store :=
  eraseEntry store name ++ [(name, e)]

inductive LookupRes
  | found
  | notFound
  | ioErr
deriving DecidableEq

/-- Path resolution following symbolic links, as the OS does for
`std::fs::metadata`: the fuel bounds the link-chain length (a real OS
fails long/cyclic chains with `ELOOP`, an I/O error that is neither
`NotFound` nor a successful lookup). -/
def resolveEntry (store : Store) : Nat → List Char → LookupRes
  | 0, _ => .ioErr
  | fuel + 1, name =>
    match lookupE store name with
    | none => .notFound
    | some (.dir _) => .found
    | some (.link target) => resolveEntry store fuel target

structure RustMetadata where
  is_symlink : Bool
deriving DecidableEq

inductive MetaResult
  | ok (md : RustMetadata)
  | errNotFound
  | errOther
deriving DecidableEq

/-- Model of `std::fs::metadata(path)`.  Per the Rust documentation it
"will traverse symbolic links to query information about the
destination file", and a `Metadata` obtained this way never reports
`is_symlink() == true` (only `symlink_metadata` can): the metadata
returned on success is that of the resolved directory. -/
def rust_fs_metadata (store : Store) (name : List Char) : MetaResult :=
  match resolveEntry store (store.length + 1) name with
  | .found => .ok ⟨false⟩
  | .notFound => .errNotFound
  | .ioErr => .errOther

/-- Model of `Path::exists` (uses `fs::metadata`). -/
def pathExists (store : Store) (name : List Char) : Bool :=
  match rust_fs_metadata store name with
  | .ok _ => true
  | _ => false

inductive GetLinkResult
  | Link
  | NotLink
  | NotFound
  | Err
deriving DecidableEq

/-- Model of `check_is_link` (blocking.rs:82-99): queries
`std::fs::metadata(path)` and asks `metadata.is_symlink()`. -/
def check_is_link (store : Store) (path : List Char) : GetLinkResult :=
  match rust_fs_metadata store path with
  | .ok md => if md.is_symlink then .Link else .NotLink
  | .errNotFound => .NotFound
  | .errOther => .Err

/-- Model of `create_link` (blocking.rs:45-55): creating a symbolic
link (or junction) fails if the link name is already occupied. -/
def create_link (store : Store) (src_path link_path : List Char) :
    Except (List Char) Store :=
  if (lookupE store link_path).isSome then
    .error ("link path already exists".toList)
  else
    .ok (setEntry store link_path (.link src_path))

/-- Model of `set_alias_tag` (blocking.rs:101-128): require the source
tag to exist; classify the alias name with `check_is_link`; on `Link`
remove it and relink, on `NotFound` link, on `NotLink` or `Err` fail. -/
def set_alias_tag (store : Store) (src_tag alias_tag : List Char) :
    Except (List Char) Store :=
  if pathExists store src_tag = false then
    .error ("src tag '".toList ++ src_tag ++ "' not found".toList)
  else
    match check_is_link store alias_tag with
    | .Link => create_link (eraseEntry store alias_tag) src_tag alias_tag
    | .NotFound => create_link store src_tag alias_tag
    | .NotLink =>
      .error ("alias tag '".toList ++ alias_tag ++ "' exists and is not an alias".toList)
    | .Err =>
      .error ("failed to check alias tag '".toList ++ alias_tag ++ "'".toList)

/-- Claim C2 (code bug): with a store holding a concrete tag `t` and an
existing alias `a -> t`, re-aliasing `a` to `t` fails with "exists and
is not an alias" instead of replacing the link.  The root cause, stated
as the third conjunct: `check_is_link` uses `std::fs::metadata`, which
follows the link, and a metadata value obtained that way never reports
being a symlink — so the `Link` arm of `set_alias_tag` is unreachable
for an alias whose target exists. -/
theorem alias_replace_rejects_existing_alias :
    set_alias_tag [("t".toList, FsEntry.dir 1), ("a".toList, FsEntry.link "t".toList)]
        "t".toList "a".toList
      = .error ("alias tag '".toList ++ "a".toList ++ "' exists and is not an alias".toList) ∧
    check_is_link [("t".toList, FsEntry.dir 1), ("a".toList, FsEntry.link "t".toList)]
        "a".toList = .NotLink ∧
    (∀ (store : Store) (name : List Char) (md : RustMetadata),
      rust_fs_metadata store name = .ok md → md.is_symlink = false) := by
  refine ⟨rfl, by decide, ?_⟩
  intro store name md h
  unfold rust_fs_metadata at h
  split at h
  · cases h; rfl
  · exact MetaResult.noConfusion h
  · exact MetaResult.noConfusion h

/-! ### Claim C5 — delete refuses to orphan aliases
(src/tool/general_tool.rs:266-301) -/

def TMP_PRE : List Char := ".tmp.".toList

/-- Model of `list_tags` (blocking.rs:130-163): walk the directory
entries in order, skip names starting with the ignore prefix, report
`(name, none)` for a concrete directory and `(name, some target)` for a
link (the Rust code takes the file-name component of the link target;
alias targets are sibling tag names, for which that is the identity). -/
def list_tags (store : Store) (ignorePre : List Char) :
    List (List Char × Option (List Char)) :=
  store.filterMap (fun p =>
    if ignorePre.isPrefixOf p.1 then none
    else
      match p.2 with
      | .dir _ => some (p.1, none)
      | .link target => some (p.1, some target))

/-- Model of `delete_tag` (general_tool.rs:266-301).  Translated in
source order: unless `allow_dangling`, the listing is scanned first and
the function returns the "alias target" error before any removal is
attempted (an `error` result therefore leaves the store unchanged);
only then is the tag entry removed, a missing tag giving the dedicated
not-found error. -/
def delete_tag (store : Store) (tag_to_delete : List Char) (allow_dangling : Bool) :
    Except (List Char) Store :=
  match (if allow_dangling then none
         else (list_tags store TMP_PRE).find? (fun p => p.2 == some tag_to_delete)) with
  | some p =>
    .error ("tag \"".toList ++ tag_to_delete ++ "\" is an alias target of \"".toList
      ++ p.1 ++ "\", delete the alias first".toList)
  | none =>
    match lookupE store tag_to_delete with
    | none => .error ("tag '".toList ++ tag_to_delete ++ "' not found".toList)
    | some _ => .ok (eraseEntry store tag_to_delete)

/-- Claim C5: deleting tag `T` without `allow_dangling` while some
listed alias targets `T` fails with the message naming that alias (the
first one in listing order), and — the scan preceding any removal in
the source — the error result carries no store modification. -/
theorem delete_refuses_alias_target (store : Store) (T a : List Char)
    (tgt : Option (List Char))
    (h : (list_tags store TMP_PRE).find? (fun p => p.2 == some T) = some (a, tgt)) :
    delete_tag store T false = .error ("tag \"".toList ++ T
      ++ "\" is an alias target of \"".toList ++ a ++ "\", delete the alias first".toList) := by
  unfold delete_tag
  rw [if_neg (by simp), h]

/-- Witness for C5: store `{t, a -> t}`; deleting `t` is refused with
the message naming `a`. -/
theorem delete_refuses_alias_target_witness :
    delete_tag [("t".toList, FsEntry.dir 1), ("a".toList, FsEntry.link "t".toList)]
        "t".toList false
      = .error ("tag \"".toList ++ "t".toList ++ "\" is an alias target of \"".toList
          ++ "a".toList ++ "\", delete the alias first".toList) :=
  delete_refuses_alias_target _ _ _ (some "t".toList) (by decide)

/-! ### Adapter plumbing shared by Go, Node and Liberica
(src/tool.rs, src/tool/general_tool/{go,node,liberica}.rs) -/

structure FileHash where
  sha1 : Option (List Char)
  sha256 : Option (List Char)
deriving DecidableEq

structure ToolDownInfo where
  version : List Char
  url : List Char
  hash : FileHash
deriving DecidableEq

structure VersionFilter where
  lts_only : Bool
  major_version : Option (List Char)
  exact_version : Option (List Char)
deriving DecidableEq

theorem cmpNatList_gt_flip {a b : List Nat} (h : cmpNatList a b = .gt) :
    cmpNatList b a ≠ .gt := by
  rw [cmpNatList_swap a b, h]
  decide

/-- Model of `Iterator::max_by(compare)`: a fold keeping the running
maximum, where a tie is won by the later element (Rust documents that
of several equally maximum elements the last is returned). -/
def rustMaxBy {α : Type} (cmp : α → α → Ordering) : List α → Option α
  | [] => none
  | x :: xs => some (xs.foldl (fun acc y => if cmp acc y = .gt then acc else y) x)

theorem rustMaxBy_spec {α : Type} (cmp : α → α → Ordering) (k : α → List Nat)
    (hk : ∀ a b, cmp a b = cmpNatList (k a) (k b)) :
    ∀ (l : List α) (m : α), rustMaxBy cmp l = some m →
      m ∈ l ∧ ∀ x ∈ l, cmpNatList (k x) (k m) ≠ .gt := by
  intro l
  rcases l with _ | ⟨x, xs⟩
  · intro m h; exact Option.noConfusion h
  · induction xs generalizing x with
    | nil =>
      intro m h
      simp only [rustMaxBy, List.foldl_nil, Option.some.injEq] at h
      subst h
      refine ⟨List.mem_singleton_self _, ?_⟩
      intro z hz
      rw [List.mem_singleton] at hz
      subst hz
      rw [cmpNatList_self]
      decide
    | cons y ys ih =>
      intro m h
      have hstep : rustMaxBy cmp (x :: y :: ys)
          = rustMaxBy cmp ((if cmp x y = .gt then x else y) :: ys) := by
        unfold rustMaxBy
        simp [List.foldl_cons]
      rw [hstep] at h
      obtain ⟨hmem, hmax⟩ := ih (if cmp x y = .gt then x else y) m h
      constructor
      · rcases List.mem_cons.mp hmem with hm | hm
        · subst hm
          split
          · exact List.mem_cons_self _ _
          · exact List.mem_cons_of_mem _ (List.mem_cons_self _ _)
        · exact List.mem_cons_of_mem _ (List.mem_cons_of_mem _ hm)
      · have hsm : cmpNatList (k (if cmp x y = .gt then x else y)) (k m) ≠ .gt :=
          hmax _ (List.mem_cons_self _ _)
        have hxm : cmpNatList (k x) (k m) ≠ .gt := by
          by_cases hxy : cmp x y = .gt
          · rw [if_pos hxy] at hsm; exact hsm
          · rw [if_neg hxy] at hsm
            rw [hk] at hxy
            exact cmpNatList_le_trans hxy hsm
        have hym : cmpNatList (k y) (k m) ≠ .gt := by
          by_cases hxy : cmp x y = .gt
          · rw [if_pos hxy] at hsm
            rw [hk] at hxy
            exact cmpNatList_le_trans (cmpNatList_gt_flip hxy) hsm
          · rw [if_neg hxy] at hsm; exact hsm
        intro z hz
        rcases List.mem_cons.mp hz with hm | hm
        · subst hm; exact hxm
        · rcases List.mem_cons.mp hm with hm2 | hm2
          · subst hm2; exact hym
          · exact hmax _ (List.mem_cons_of_mem _ hm2)

theorem rustMaxBy_ne_nil {α : Type} (cmp : α → α → Ordering) (l : List α)
    (h : l ≠ []) : ∃ m, rustMaxBy cmp l = some m := by
  rcases l with _ | ⟨x, xs⟩
  · exact absurd rfl h
  · exact ⟨_, rfl⟩

/-- Stable insertion: an element goes in front of the first element it
does not compare `Greater` to, so equal elements keep their original
order — the observable behavior of Rust's stable `slice::sort_by`. -/
def insertSorted {α : Type} (cmp : α → α → Ordering) (x : α) : List α → List α
  | [] => [x]
  | y :: ys => if cmp x y = .gt then y :: insertSorted cmp x ys else x :: y :: ys

/-- Model of `Vec::sort_by` followed by reading the result: a stable
sort by the comparator (the output of a stable sort is determined by
the comparator, so insertion sort and Rust's merge sort agree). -/
def sortByCmp {α : Type} (cmp : α → α → Ordering) : List α → List α
  | [] => []
  | x :: xs => insertSorted cmp x (sortByCmp cmp xs)

theorem insertSorted_ne_nil {α : Type} (cmp : α → α → Ordering) (x : α) (l : List α) :
    insertSorted cmp x l ≠ [] := by
  cases l with
  | nil => simp [insertSorted]
  | cons y ys =>
    unfold insertSorted
    split <;> simp

theorem sortByCmp_eq_nil {α : Type} (cmp : α → α → Ordering) (l : List α)
    (h : sortByCmp cmp l = []) : l = [] := by
  cases l with
  | nil => rfl
  | cons x xs => exact absurd h (insertSorted_ne_nil cmp x (sortByCmp cmp xs))

theorem insertSorted_mem {α : Type} (cmp : α → α → Ordering) (x : α) (l : List α)
    (y : α) : y ∈ insertSorted cmp x l ↔ y = x ∨ y ∈ l := by
  induction l with
  | nil => simp [insertSorted]
  | cons z zs ih =>
    unfold insertSorted
    split
    · simp only [List.mem_cons, ih]
      tauto
    · simp [List.mem_cons]

/-- Head of the descending stable sort: a member of the list whose key
is maximal. -/
theorem sortByCmp_head_max {α : Type} (cmp : α → α → Ordering) (k : α → List Nat)
    (hk : ∀ a b, cmp a b = cmpNatList (k b) (k a)) (l : List α) :
    ∀ (m : α) (rest : List α), sortByCmp cmp l = m :: rest →
      m ∈ l ∧ ∀ x ∈ l, cmpNatList (k x) (k m) ≠ .gt := by
  induction l with
  | nil => intro m rest h; exact List.noConfusion h
  | cons x xs ih =>
    intro m rest h
    unfold sortByCmp at h
    rcases hs : sortByCmp cmp xs with _ | ⟨m', rest'⟩
    · have hxs : xs = [] := sortByCmp_eq_nil cmp xs hs
      subst hxs
      rw [hs] at h
      unfold insertSorted at h
      injection h with h1 h2
      subst h1
      refine ⟨List.mem_singleton_self _, ?_⟩
      intro z hz
      rw [List.mem_singleton] at hz
      subst hz
      rw [cmpNatList_self]
      decide
    · rw [hs] at h
      obtain ⟨hmem', hmax'⟩ := ih m' rest' hs
      unfold insertSorted at h
      split at h
      · rename_i hgt
        injection h with h1 h2
        subst h1
        refine ⟨List.mem_cons_of_mem _ hmem', ?_⟩
        intro z hz
        rcases List.mem_cons.mp hz with hm | hm
        · subst hm
          rw [hk] at hgt
          exact cmpNatList_gt_flip hgt
        · exact hmax' z hm
      · rename_i hng
        injection h with h1 h2
        subst h1
        refine ⟨List.mem_cons_self _ _, ?_⟩
        intro z hz
        rcases List.mem_cons.mp hz with hm | hm
        · subst hm
          rw [cmpNatList_self]
          decide
        · rw [hk] at hng
          exact cmpNatList_le_trans (hmax' z hm) hng

/-! ### Go adapter (src/tool/general_tool/go.rs) -/

structure ReleaseFileDto where
  filename : List Char
  os : List Char
  arch : List Char
  sha256 : List Char
  kind : List Char
deriving DecidableEq

/-- Model of `ReleaseFileDto::matches` (go.rs:271-275). -/
def ReleaseFileDto.matches (f : ReleaseFileDto) (cpu os : List Char) : Bool :=
  f.os == os && f.arch == cpu && f.kind == "archive".toList

structure ReleaseDto where
  version : List Char
  files : List ReleaseFileDto
deriving DecidableEq

/-- Model of `GoVersion::is_lts` (go.rs:298-302): final release, no
pre-release tag. -/
def GoVersion.is_lts (v : GoVersion) : Bool := decide (v.pre_release = .None)

structure GoVersionFilter where
  lts_only : Bool
  major_version : Option Nat
  exact_version : Option (List Char)
deriving DecidableEq

/-- Model of `GoVersionFilter::matches` (go.rs:310-332). -/
def GoVersionFilter.matches (f : GoVersionFilter) (raw : List Char) (v : GoVersion) :
    Bool :=
  if f.lts_only && !v.is_lts then false
  else if (match f.major_version with
           | some m => decide (v.major ≠ m)
           | none => false) then false
  else if (match f.exact_version with
           | some e => decide (e ≠ raw)
           | none => false) then false
  else true

/-- Model of `TryFrom<VersionFilter> for GoVersionFilter`
(go.rs:334-347): the major component must parse as `u32`. -/
def GoVersionFilter.tryFrom (f : VersionFilter) : Except String GoVersionFilter :=
  match f.major_version with
  | none => .ok ⟨f.lts_only, none, f.exact_version⟩
  | some m =>
    match parseU32 m with
    | some n => .ok ⟨f.lts_only, some n, f.exact_version⟩
    | none => .error "Invalid major version"

def goBaseUrl : List Char := "https://golang.org/dl/".toList

/-- URL built by `format_smolstr!("{}/{}", BASE_URL, item.filename)`
(go.rs:102) — `BASE_URL` itself ends in a slash, so the result contains
`dl//`. -/
def goMkUrl (filename : List Char) : List Char := goBaseUrl ++ "/".toList ++ filename

/-- The releases Go's `get_down_info` keeps (go.rs:83-97): first file
matching the platform's (cpu, os) with kind `archive`, parseable
version, filter match. -/
def goCandidates (catalog : List ReleaseDto) (vf : GoVersionFilter)
    (cpu os : List Char) : List (GoVersion × List Char × ReleaseFileDto) :=
  catalog.filterMap (fun r =>
    match r.files.find? (fun f => f.matches cpu os) with
    | none => none
    | some item =>
      match parse_go_version r.version with
      | .error _ => none
      | .ok (raw, v) => if vf.matches raw v then some (v, raw, item) else none)

/-- Model of Go `Tool::get_down_info` (go.rs:72-111) with the fetched
catalog as input: the maximum matching release wins (`max_by` on the
parsed version); zero matches is the "No download URL found." error. -/
def goGetDownInfo (catalog : List ReleaseDto) (filter : VersionFilter)
    (cpu os : List Char) : Except String ToolDownInfo :=
  match GoVersionFilter.tryFrom filter with
  | .error e => .error e
  | .ok vf =>
    match rustMaxBy (fun a b => GoVersion.cmp a.1 b.1) (goCandidates catalog vf cpu os) with
    | some c => .ok ⟨c.2.1, goMkUrl c.2.2.filename, ⟨none, some c.2.2.sha256⟩⟩
    | none => .error "No download URL found."

/-! ### Node adapter (src/tool/general_tool/node.rs) -/

inductive LtsDto
  | str (s : List Char)
  | flag (b : Bool)
deriving DecidableEq

/-- Model of `LtsDto::is` (node.rs:251-258); the Rust variants are
named `String` and `Bool`, which are type names in Lean, hence
`str`/`flag`. -/
def LtsDto.is (l : LtsDto) : Bool :=
  match l with
  | .str _ => true
  | .flag b => b

structure NodeReleaseDto where
  version : List Char
  lts : LtsDto
  files : List (List Char)
deriving DecidableEq

structure NodeVersionFilter where
  lts_only : Bool
  major_version : Option Nat
  exact_version : Option (List Char)
deriving DecidableEq

/-- Model of `NodeVersionFilter::verify` (node.rs:281-301). -/
def NodeVersionFilter.verify (f : NodeVersionFilter) (raw : List Char)
    (v : NodeVersion) (is_lts : Bool) : Bool :=
  if f.lts_only && !is_lts then false
  else if (match f.major_version with
           | some m => decide (v.major ≠ m)
           | none => false) then false
  else if (match f.exact_version with
           | some e => decide (raw ≠ e)
           | none => false) then false
  else true

/-- Model of `TryFrom<VersionFilter> for NodeVersionFilter`
(node.rs:303-316). -/
def NodeVersionFilter.tryFrom (f : VersionFilter) : Except String NodeVersionFilter :=
  match f.major_version with
  | none => .ok ⟨f.lts_only, none, f.exact_version⟩
  | some m =>
    match parseU32 m with
    | some n => .ok ⟨f.lts_only, some n, f.exact_version⟩
    | none => .error "Invalid major version"

def nodeBaseUrl : List Char := "https://nodejs.org/dist/".toList

/-- Model of `char::is_whitespace` restricted to the ASCII whitespace
that appears in `SHASUMS256.txt`. -/
def isWsChar (c : Char) : Bool :=
  decide (c = ' ' ∨ c = '\t' ∨ c = '\n' ∨ c = '\r')

def splitWsAux : List Char → List Char → List (List Char)
  | [], acc => if acc = [] then [] else [acc.reverse]
  | c :: cs, acc =>
    if isWsChar c then
      if acc = [] then splitWsAux cs [] else acc.reverse :: splitWsAux cs []
    else splitWsAux cs (c :: acc)

/-- Model of `str::split_whitespace`: maximal runs of non-whitespace. -/
def rustSplitWhitespace (l : List Char) : List (List Char) := splitWsAux l []

/-- Model of `str::lines`: split on `\n`, drop one trailing empty piece
(a trailing newline produces no final empty line), strip a trailing
`\r` from each line. -/
def rustLines (t : List Char) : List (List Char) :=
  let ls := splitChar '\n' t
  let ls := if ls.getLast? = some [] then ls.dropLast else ls
  ls.map (fun line => if line.getLast? = some '\r' then line.dropLast else line)

/-- The sha256 scan of Node `get_down_info` (node.rs:113-125): first
line of `SHASUMS256.txt` whose second whitespace field equals the file
name; its first field is the hash. -/
def nodeFindSha256 (sha256_content file_name : List Char) : Option (List Char) :=
  ((rustLines sha256_content).filterMap (fun line =>
    match rustSplitWhitespace line with
    | sha256 :: filename :: _ =>
      if filename == file_name then some sha256 else none
    | _ => none)).head?

/-- URL/hash construction of Node `get_down_info` for the selected raw
version (node.rs:102-138): `url_dir = format!("{}/v{}", BASE_URL, raw)`
(`BASE_URL` ends in a slash, so the URL contains `dist//`),
`file_name = format!("node-v{}-{}", raw, archive_suffix)`, hash looked
up in the SHASUMS text (its absence is only a warning). -/
def nodeMkDownInfo (version_raw sha256_content archive_suffix : List Char) :
    ToolDownInfo :=
  let url_dir := nodeBaseUrl ++ "/v".toList ++ version_raw
  let file_name := "node-v".toList ++ version_raw ++ "-".toList ++ archive_suffix
  ⟨version_raw, url_dir ++ "/".toList ++ file_name,
    ⟨none, nodeFindSha256 sha256_content file_name⟩⟩

/-- The releases Node's `get_down_info` keeps (node.rs:86-99):
parseable version, filter match, platform file key present. -/
def nodeCandidates (catalog : List NodeReleaseDto) (vf : NodeVersionFilter)
    (file_dto : List Char) : List (NodeVersion × List Char) :=
  catalog.filterMap (fun r =>
    match parse_node_version r.version with
    | .error _ => none
    | .ok (raw, v) =>
      if !(vf.verify raw v r.lts.is) then none
      else if !(r.files.any (fun f => f == file_dto)) then none
      else some (v, raw))

/-- Model of Node `Tool::get_down_info` (node.rs:73-142) with the
fetched catalog and the SHASUMS256.txt text as inputs. -/
def nodeGetDownInfo (catalog : List NodeReleaseDto) (sha256_content : List Char)
    (filter : VersionFilter) (file_dto archive_suffix : List Char) :
    Except String ToolDownInfo :=
  match NodeVersionFilter.tryFrom filter with
  | .error e => .error e
  | .ok vf =>
    match rustMaxBy (fun a b => NodeVersion.cmp a.1 b.1)
        (nodeCandidates catalog vf file_dto) with
    | some c => .ok (nodeMkDownInfo c.2 sha256_content archive_suffix)
    | none => .error "No download URL found."

/-- The platform rows of
`get_platforms_and_corresponding_file_dto_and_archive_suffix`
(node.rs:181-218), keyed by the `{cpu}-{os}` platform string (the source
keeps two parallel lists and indexes by position; platform strings are
distinct, so an association list is the same map). -/
def nodePlatformTable : List (List Char × List Char × List Char) :=
  [("x64-linux".toList, "linux-x64".toList, "linux-x64.tar.xz".toList),
   ("x86-linux".toList, "linux-x86".toList, "linux-x86.tar.xz".toList),
   ("arm64-linux".toList, "linux-arm64".toList, "linux-arm64.tar.xz".toList),
   ("armv6l-linux".toList, "linux-armv6l".toList, "linux-armv6l.tar.xz".toList),
   ("armv7l-linux".toList, "linux-armv7l".toList, "linux-armv7l.tar.xz".toList),
   ("ppc64le-linux".toList, "linux-ppc64le".toList, "linux-ppc64le.tar.xz".toList),
   ("s390x-linux".toList, "linux-s390x".toList, "linux-s390x.tar.xz".toList),
   ("x64-win".toList, "win-x64-zip".toList, "win-x64.zip".toList),
   ("x86-win".toList, "win-x86-zip".toList, "win-x86.zip".toList),
   ("arm64-win".toList, "win-arm64-zip".toList, "win-arm64.zip".toList),
   ("arm64-mac".toList, "osx-arm64-tar".toList, "darwin-arm64.tar.xz".toList),
   ("x64-mac".toList, "osx-x64-tar".toList, "darwin-x64.tar.xz".toList),
   ("x86-mac".toList, "osx-x86-tar".toList, "darwin-x86.tar.xz".toList),
   ("x64-solaris".toList, "sunos-x64".toList, "sunos-x64.tar.xz".toList),
   ("x86-solaris".toList, "sunos-x86".toList, "sunos-x86.tar.xz".toList),
   ("ppc64-aix".toList, "aix-ppc64".toList, "aix-ppc64.tar.gz".toList)]

/-- Model of `get_file_dto_and_archive_suffix` (node.rs:220-230). -/
def nodeFileDtoAndSuffix (platform : List Char) : Option (List Char × List Char) :=
  (nodePlatformTable.find? (fun p => p.1 == platform)).map (fun p => p.2)

/-! ### Liberica adapter (src/tool/general_tool/liberica.rs) -/

/-- A release as `fetch_liberica_releases` / `fetch_nik_releases`
deliver it (liberica.rs:380-418): the version already parsed with
`JdkVersion::parse`, the raw upstream label kept alongside. -/
structure ReleaseItem where
  download_url : List Char
  sha1 : List Char
  version_raw : List Char
  version : JdkVersion
  lts : Bool
deriving DecidableEq

/-- Client-side filter of `fetch_nik_releases` (liberica.rs:306-331):
applied only when a major or exact version was requested (the JDK/JRE
endpoint filters server-side instead, which corresponds to `none`,
`none` here). -/
def nikClientFilter (releases : List ReleaseItem) (major_version : Option Nat)
    (exact_version : Option (List Char)) : List ReleaseItem :=
  if exact_version.isSome || major_version.isSome then
    releases.filter (fun r =>
      !(match major_version with
        | some v => decide (r.version.major ≠ v)
        | none => false) &&
      !(match exact_version with
        | some v => decide (r.version_raw ≠ v)
        | none => false))
  else releases

/-- Model of Liberica `Tool::get_down_info` (liberica.rs:107-127) after
the fetch: sort descending by parsed version (`sort_by(|a, b|
b.version.cmp(&a.version))`), take the first release; hash is sha1. -/
def libericaGetDownInfo (releases : List ReleaseItem) : Except String ToolDownInfo :=
  match sortByCmp (fun a b => JdkVersion.cmp b.version a.version) releases with
  | r :: _ => .ok ⟨r.version_raw, r.download_url, ⟨some r.sha1, none⟩⟩
  | [] => .error "No download URL found."

/-! ### Claim C6 — `get_down_info` returns the maximum matching release -/

/-- Claim C6 (amended): for each adapter (Go, Node, Liberica) and every
catalog, `get_down_info` returns the `{version, url, hash}` built from a
matching release whose version is maximal under the tool's order; when
nothing matches it fails — with the error message
`"No download URL found."` (capital N, trailing period), not the
`"no download URL found"` the claim quotes.  For Liberica the matching
set is the fetched list after the NIK client-side filter (the JDK/JRE
endpoint filters server-side, which is the `none, none` instance). -/
theorem get_down_info_selects_max
    (gcat : List ReleaseDto) (gfilter : VersionFilter) (gvf : GoVersionFilter)
    (cpu os : List Char)
    (hgvf : GoVersionFilter.tryFrom gfilter = .ok gvf)
    (ncat : List NodeReleaseDto) (nfilter : VersionFilter) (nvf : NodeVersionFilter)
    (sha_text file_dto archive_suffix : List Char)
    (hnvf : NodeVersionFilter.tryFrom nfilter = .ok nvf)
    (lrel : List ReleaseItem) (mv : Option Nat) (ev : Option (List Char)) :
    (goCandidates gcat gvf cpu os = [] →
      goGetDownInfo gcat gfilter cpu os = .error "No download URL found.") ∧
    (goCandidates gcat gvf cpu os ≠ [] →
      ∃ c ∈ goCandidates gcat gvf cpu os,
        (∀ z ∈ goCandidates gcat gvf cpu os, GoVersion.cmp z.1 c.1 ≠ .gt) ∧
        goGetDownInfo gcat gfilter cpu os =
          .ok ⟨c.2.1, goMkUrl c.2.2.filename, ⟨none, some c.2.2.sha256⟩⟩) ∧
    (nodeCandidates ncat nvf file_dto = [] →
      nodeGetDownInfo ncat sha_text nfilter file_dto archive_suffix =
        .error "No download URL found.") ∧
    (nodeCandidates ncat nvf file_dto ≠ [] →
      ∃ c ∈ nodeCandidates ncat nvf file_dto,
        (∀ z ∈ nodeCandidates ncat nvf file_dto, NodeVersion.cmp z.1 c.1 ≠ .gt) ∧
        nodeGetDownInfo ncat sha_text nfilter file_dto archive_suffix =
          .ok (nodeMkDownInfo c.2 sha_text archive_suffix)) ∧
    (nikClientFilter lrel mv ev = [] →
      libericaGetDownInfo (nikClientFilter lrel mv ev) =
        .error "No download URL found.") ∧
    (nikClientFilter lrel mv ev ≠ [] →
      ∃ r ∈ nikClientFilter lrel mv ev,
        (∀ z ∈ nikClientFilter lrel mv ev, JdkVersion.cmp z.version r.version ≠ .gt) ∧
        libericaGetDownInfo (nikClientFilter lrel mv ev) =
          .ok ⟨r.version_raw, r.download_url, ⟨some r.sha1, none⟩⟩) := by
  refine ⟨?_, ?_, ?_, ?_, ?_, ?_⟩
  · intro hempty
    unfold goGetDownInfo
    simp only [hgvf]
    rw [hempty]
    rfl
  · intro hne
    obtain ⟨m, hm⟩ := rustMaxBy_ne_nil _ _ hne
    obtain ⟨hmem, hmax⟩ := rustMaxBy_spec _ (fun t => GoVersion.key t.1)
      (fun a b => GoVersion.cmp_eq_goKey a.1 b.1) _ m hm
    refine ⟨m, hmem, ?_, ?_⟩
    · intro z hz
      rw [GoVersion.cmp_eq_goKey]
      exact hmax z hz
    · unfold goGetDownInfo
      simp only [hgvf]
      rw [hm]
  · intro hempty
    unfold nodeGetDownInfo
    simp only [hnvf]
    rw [hempty]
    rfl
  · intro hne
    obtain ⟨m, hm⟩ := rustMaxBy_ne_nil _ _ hne
    obtain ⟨hmem, hmax⟩ := rustMaxBy_spec _ (fun t => NodeVersion.key t.1)
      (fun a b => NodeVersion.cmp_eq_nodeKey a.1 b.1) _ m hm
    refine ⟨m, hmem, ?_, ?_⟩
    · intro z hz
      rw [NodeVersion.cmp_eq_nodeKey]
      exact hmax z hz
    · unfold nodeGetDownInfo
      simp only [hnvf]
      rw [hm]
  · intro hempty
    unfold libericaGetDownInfo
    rw [hempty]
    rfl
  · intro hne
    rcases hs : sortByCmp (fun a b => JdkVersion.cmp b.version a.version)
        (nikClientFilter lrel mv ev) with _ | ⟨r, rest⟩
    · exact absurd (sortByCmp_eq_nil _ _ hs) hne
    · obtain ⟨hmem, hmax⟩ := sortByCmp_head_max _ (fun t => t.version.key)
        (fun a b => JdkVersion.cmp_eq_jdkKey b.version a.version) _ r rest hs
      refine ⟨r, hmem, ?_, ?_⟩
      · intro z hz
        rw [JdkVersion.cmp_eq_jdkKey]
        exact hmax z hz
      · unfold libericaGetDownInfo
        rw [hs]

/-- Counterexample to C6 as stated: the zero-match error message the
three adapters produce is `"No download URL found."`, which is not the
`"no download URL found"` the claim states. -/
theorem no_download_url_message_differs :
    goGetDownInfo [] ⟨false, none, none⟩ "amd64".toList "linux".toList =
      .error "No download URL found." ∧
    nodeGetDownInfo [] [] ⟨false, none, none⟩ "linux-x64".toList
        "linux-x64.tar.xz".toList = .error "No download URL found." ∧
    libericaGetDownInfo [] = .error "No download URL found." ∧
    ("No download URL found." : String) ≠ "no download URL found" :=
  ⟨rfl, rfl, rfl, by decide⟩

/-- A two-release Go catalog (go1.22.1 and go1.24.2, each with a
linux/amd64 archive file) used to witness the maximum selection. -/
def goWitCatalog : List ReleaseDto :=
  [⟨"go1.22.1".toList,
    [⟨"go1.22.1.linux-amd64.tar.gz".toList, "linux".toList, "amd64".toList,
      "aa11".toList, "archive".toList⟩]⟩,
   ⟨"go1.24.2".toList,
    [⟨"go1.24.2.linux-amd64.tar.gz".toList, "linux".toList, "amd64".toList,
      "bb22".toList, "archive".toList⟩]⟩]

/-- Witness for C6: the Go selection on a concrete two-release catalog,
and the concrete zero-match errors of Node and Liberica, all obtained by
applying the theorem with its hypotheses discharged. -/
theorem get_down_info_selects_max_witness :
    (∃ c ∈ goCandidates goWitCatalog ⟨false, none, none⟩ "amd64".toList "linux".toList,
      (∀ z ∈ goCandidates goWitCatalog ⟨false, none, none⟩ "amd64".toList "linux".toList,
        GoVersion.cmp z.1 c.1 ≠ .gt) ∧
      goGetDownInfo goWitCatalog ⟨false, none, none⟩ "amd64".toList "linux".toList =
        .ok ⟨c.2.1, goMkUrl c.2.2.filename, ⟨none, some c.2.2.sha256⟩⟩) ∧
    nodeGetDownInfo [] [] ⟨false, none, none⟩ "linux-x64".toList
        "linux-x64.tar.xz".toList = .error "No download URL found." ∧
    libericaGetDownInfo (nikClientFilter [] none none) =
      .error "No download URL found." := by
  have h := get_down_info_selects_max goWitCatalog ⟨false, none, none⟩
    ⟨false, none, none⟩ "amd64".toList "linux".toList rfl
    [] ⟨false, none, none⟩ ⟨false, none, none⟩ [] "linux-x64".toList
    "linux-x64.tar.xz".toList rfl [] none none
  exact ⟨h.2.1 (by decide), h.2.2.1 rfl, h.2.2.2.2.1 rfl⟩

/-! ### Claim C4 — the Node exact-version scenario -/

/-- Upstream catalog holding the v20.11.1 release with the `linux-x64`
file key. -/
def nodeC4Catalog : List NodeReleaseDto :=
  [⟨"v20.11.1".toList, .str "Iron".toList,
    ["linux-x64".toList, "win-x64-zip".toList]⟩]

/-- A SHASUMS256.txt body: the second line's second field is the
x64-linux archive file name. -/
def nodeC4Shas : List Char :=
  ("111100ff00aa000000000000000000000000000000000000000000000000aaaa  node-v20.11.1-darwin-x64.tar.xz\n"
    ++ "5c1b4a6c2f7f9a31cf8c7343bcbf6e0bd40e2b7a44dd10a311cb352b2e0ab4ba  node-v20.11.1-linux-x64.tar.xz\n").toList

/-- Counterexample to C4 as stated: the URL the code returns for the
x64-linux v20.11.1 scenario is not
`https://nodejs.org/dist/v20.11.1/node-v20.11.1-linux-x64.tar.xz` (the
code appends `/v{version}` to a base URL that already ends in `/`). -/
theorem node_exact_version_url_counterexample :
    ∃ info : ToolDownInfo,
      nodeGetDownInfo nodeC4Catalog nodeC4Shas ⟨false, none, some "20.11.1".toList⟩
          "linux-x64".toList "linux-x64.tar.xz".toList = .ok info ∧
      info.url ≠
        "https://nodejs.org/dist/v20.11.1/node-v20.11.1-linux-x64.tar.xz".toList := by
  refine ⟨nodeMkDownInfo "20.11.1".toList nodeC4Shas "linux-x64.tar.xz".toList,
    rfl, ?_⟩
  decide

/-- Claim C4 (amended): for the Node adapter at platform x64-linux and
exact version 20.11.1, `get_down_info` returns the URL
`https://nodejs.org/dist//v20.11.1/node-v20.11.1-linux-x64.tar.xz`
(doubled slash after `dist`, as built by the code), and the sha256 is
the first field of the SHASUMS256.txt line whose second field equals
`node-v20.11.1-linux-x64.tar.xz`.  The first conjunct records the
platform-table row used for x64-linux. -/
theorem node_exact_version_downinfo :
    nodeFileDtoAndSuffix "x64-linux".toList =
      some ("linux-x64".toList, "linux-x64.tar.xz".toList) ∧
    nodeGetDownInfo nodeC4Catalog nodeC4Shas ⟨false, none, some "20.11.1".toList⟩
        "linux-x64".toList "linux-x64.tar.xz".toList =
      .ok ⟨"20.11.1".toList,
        "https://nodejs.org/dist//v20.11.1/node-v20.11.1-linux-x64.tar.xz".toList,
        ⟨none,
         some "5c1b4a6c2f7f9a31cf8c7343bcbf6e0bd40e2b7a44dd10a311cb352b2e0ab4ba".toList⟩⟩ :=
  ⟨rfl, rfl⟩

/-! ### Claim C1 — scratch cleanup and target preservation on failed or
cancelled installs

The streamed install (`InstallArgs::install` + `DownloadExtractState`
driven to `Stopped`, with `InstallCustomAction` as the callback) is a
sequence of atomic blocking blocks separated by suspension points; the
whole future runs under the one `CancellableFuture` (src/main.rs:29), so
once the flag is set the next poll drops the state machine and
`TmpDir::drop` (blocking.rs:28-36) removes the scratch directory — the
same drop that runs at the end of every `advance`, error or not
(io/mod.rs:214-226).  Fallible effects are decided by an oracle so the
theorem quantifies over every failure/cancellation pattern. -/

def tmpName (T : List Char) : List Char := TMP_PRE ++ T

inductive InstallResult
  | ok
  | err
  | cancelled
deriving DecidableEq

/-- Outcomes of the fallible steps of one install, in pipeline order:
`startOk` covers `create_dir_all(tmp)`/`File::create` in `start`
(io/mod.rs:92-104; on failure the just-created `TmpDir` is dropped
inside the closure, so nothing survives); `chunkCount` nonempty body
chunks; `chunkFail` the advance index at which a chunk read/write
errors; `verifyOk` the hash verification (`on_downloaded`);
`extractOk` the worker extraction; `removeOk` the
`remove_dir_all(tag_dir)` of an update; `renameOk` the
`fs::rename(move_source, tag_dir)`; `cancelAt` the first advance whose
cancellation poll observes the flag; `newContent` the contents the
extraction produces. -/
structure InstallOracle where
  startOk : Bool
  chunkCount : Nat
  chunkFail : Option Nat
  verifyOk : Bool
  extractOk : Bool
  removeOk : Bool
  renameOk : Bool
  cancelAt : Option Nat
  newContent : Nat
deriving DecidableEq

/-- The flag is sticky, so the poll before advance `k` observes it
exactly when the cancellation happened at or before `k`. -/
def isCancelledAtStep (o : InstallOracle) (k : Nat) : Bool :=
  match o.cancelAt with
  | some c => decide (c ≤ k)
  | none => false

/-- `TmpDir::drop`: remove the scratch directory (idempotent;
`remove_dir_all` errors are logged and ignored, blocking.rs:17-25). -/
def dropTmpDir (store : Store) (T : List Char) : Store :=
  eraseEntry store (tmpName T)

/-- Tail of `on_extracted` (general_tool.rs:69-83): when `--default`
was requested, set the `default` alias via `set_alias_tag`; its failure
fails the install.  The scratch is dropped afterwards in every case
(end of the extracting `advance`). -/
def installAliasStep (defaultFlag : Bool) (T : List Char) (s : Store) :
    InstallResult × Store :=
  if defaultFlag then
    match set_alias_tag s T "default".toList with
    | .ok s2 => (.ok, dropTmpDir s2 T)
    | .error _ => (.err, dropTmpDir s T)
  else (.ok, dropTmpDir s T)

/-- The extracting advance (io/mod.rs:191-209 with
general_tool.rs:37-84): poll cancellation, extract on the worker, then
in one blocking block pick the move source, remove a pre-existing
`tag_dir`, create parents and rename into place; then the alias step.
Every error or cancellation exit drops the scratch. -/
def installExtractAdvance (o : InstallOracle) (defaultFlag : Bool) (T : List Char)
    (k : Nat) (s : Store) : InstallResult × Store :=
  if isCancelledAtStep o k then (.cancelled, dropTmpDir s T)
  else if o.extractOk = false then (.err, dropTmpDir s T)
  else if pathExists s T then
    if o.removeOk = false then (.err, dropTmpDir s T)
    else
      let s2 := eraseEntry s T
      if o.renameOk = false then (.err, dropTmpDir s2 T)
      else installAliasStep defaultFlag T (setEntry s2 T (.dir o.newContent))
  else
    if o.renameOk = false then (.err, dropTmpDir s T)
    else installAliasStep defaultFlag T (setEntry s T (.dir o.newContent))

/-- The download advances (io/mod.rs:150-190): each polls cancellation,
then reads and writes one chunk into the scratch file (`n` nonempty
chunks remain); the empty chunk runs `on_downloaded` (hash check) and
hands over to the extracting advance at index `k + 1`. -/
def installDownloadLoop (o : InstallOracle) (defaultFlag : Bool) (T : List Char) :
    Nat → Nat → Store → InstallResult × Store
  | 0, k, s =>
    if isCancelledAtStep o k then (.cancelled, dropTmpDir s T)
    else if o.verifyOk = false then (.err, dropTmpDir s T)
    else installExtractAdvance o defaultFlag T (k + 1) s
  | nn + 1, k, s =>
    if isCancelledAtStep o k then (.cancelled, dropTmpDir s T)
    else if o.chunkFail = some k then (.err, dropTmpDir s T)
    else installDownloadLoop o defaultFlag T nn (k + 1) s

/-- Model of one full streamed install of target tag `T`
(`InstallArgs::install`, general_tool.rs:99-162, the state machine
driven to `Stopped` by the CLI loop): the pre-checks (existing tag
without update, general_tool.rs:120-134; scratch already present,
general_tool.rs:136-145), the scratch creation in `start`, then the
advances starting at index 0. -/
def runInstall (o : InstallOracle) (update defaultFlag : Bool) (T : List Char)
    (store : Store) : InstallResult × Store :=
  if update = false ∧ pathExists store T = true then (.err, store)
  else if pathExists store (tmpName T) = true then (.err, store)
  else if o.startOk = false then (.err, store)
  else installDownloadLoop o defaultFlag T o.chunkCount 0
    (setEntry store (tmpName T) (.dir 0))

/-- The failure/cancellation modes that strike before `on_extracted`'s
remove/rename block: cancellation at any poll (the last poll, index
`chunkCount + 1`, still precedes extraction and the move), a chunk
error, a hash-verification failure, or an extraction failure. -/
def failsBeforeMove (o : InstallOracle) : Prop :=
  (∃ c, o.cancelAt = some c ∧ c ≤ o.chunkCount + 1) ∨
  (∃ i, o.chunkFail = some i ∧ i < o.chunkCount) ∨
  o.verifyOk = false ∨ o.extractOk = false

theorem lookupE_cons (q : List Char × FsEntry) (s : Store) (m : List Char) :
    lookupE (q :: s) m = if q.1 == m then some q.2 else lookupE s m := by
  unfold lookupE
  simp only [List.find?]
  cases hq : (q.1 == m) <;> simp [hq]

theorem lookupE_eraseEntry_self (s : Store) (n : List Char) :
    lookupE (eraseEntry s n) n = none := by
  induction s with
  | nil => rfl
  | cons p ps ih =>
    simp only [eraseEntry] at ih ⊢
    rw [List.filter_cons]
    by_cases hp : (p.1 == n) = true
    · simp only [hp, Bool.not_true, if_false]
      exact ih
    · have hp2 : (p.1 == n) = false := by simpa using hp
      simp only [hp2, Bool.not_false, if_true, lookupE_cons, if_false]
      exact ih

theorem lookupE_eraseEntry_ne (s : Store) {n m : List Char} (h : m ≠ n) :
    lookupE (eraseEntry s n) m = lookupE s m := by
  induction s with
  | nil => rfl
  | cons p ps ih =>
    simp only [eraseEntry] at ih ⊢
    rw [List.filter_cons]
    by_cases hp : (p.1 == n) = true
    · have hpm : (p.1 == m) = false := by
        have hpn : p.1 = n := by simpa using hp
        rw [beq_eq_false_iff_ne, hpn]
        exact fun he => h he.symm
      simp only [hp, Bool.not_true, if_false, lookupE_cons, hpm]
      exact ih
    · have hp2 : (p.1 == n) = false := by simpa using hp
      simp only [hp2, Bool.not_false, if_true, lookupE_cons]
      by_cases hm : (p.1 == m) = true
      · simp [hm]
      · have hm2 : (p.1 == m) = false := by simpa using hm
        simp only [hm2, if_false]
        exact ih

theorem lookupE_append (s t : Store) (m : List Char) :
    lookupE (s ++ t) m =
      match lookupE s m with
      | some v => some v
      | none => lookupE t m := by
  induction s with
  | nil => simp [lookupE]
  | cons p ps ih =>
    rw [List.cons_append, lookupE_cons, lookupE_cons]
    by_cases hm : (p.1 == m) = true
    · simp [hm]
    · have hm2 : (p.1 == m) = false := by simpa using hm
      simp only [hm2, if_false]
      exact ih

theorem lookupE_setEntry_ne (s : Store) {n m : List Char} (e : FsEntry)
    (h : m ≠ n) : lookupE (setEntry s n e) m = lookupE s m := by
  unfold setEntry
  rw [lookupE_append, lookupE_eraseEntry_ne s h]
  cases hl : lookupE s m with
  | some v => rfl
  | none =>
    rw [lookupE_cons]
    have : (n == m) = false := by
      simp only [beq_eq_false_iff_ne]
      exact fun he => h he.symm
    simp [this, lookupE]

theorem lookupE_setEntry_self (s : Store) (n : List Char) (e : FsEntry) :
    lookupE (setEntry s n e) n = some e := by
  unfold setEntry
  rw [lookupE_append, lookupE_eraseEntry_self]
  simp [lookupE_cons, lookupE]

theorem tmpName_ne (T : List Char) : T ≠ tmpName T := by
  intro h
  have hlen := congrArg List.length h
  rw [tmpName, List.length_append] at hlen
  have h5 : TMP_PRE.length = 5 := rfl
  rw [h5] at hlen
  omega

theorem lookupE_dropTmpDir (s : Store) (T : List Char) :
    lookupE (dropTmpDir s T) T = lookupE s T :=
  lookupE_eraseEntry_ne s (tmpName_ne T)

theorem dropTmpDir_no_tmp (s : Store) (T : List Char) :
    lookupE (dropTmpDir s T) (tmpName T) = none :=
  lookupE_eraseEntry_self s (tmpName T)

theorem installAliasStep_no_tmp (d : Bool) (T : List Char) (s : Store) :
    lookupE (installAliasStep d T s).2 (tmpName T) = none := by
  unfold installAliasStep
  by_cases hd : d = true
  · rw [if_pos hd]
    cases hset : set_alias_tag s T "default".toList with
    | ok s2 => simp only [hset]; exact dropTmpDir_no_tmp s2 T
    | error e => simp only [hset]; exact dropTmpDir_no_tmp s T
  · rw [if_neg hd]
    exact dropTmpDir_no_tmp s T

theorem installExtractAdvance_no_tmp (o : InstallOracle) (d : Bool) (T : List Char)
    (k : Nat) (s : Store) :
    lookupE (installExtractAdvance o d T k s).2 (tmpName T) = none := by
  unfold installExtractAdvance
  split
  · exact dropTmpDir_no_tmp s T
  · split
    · exact dropTmpDir_no_tmp s T
    · split
      · split
        · exact dropTmpDir_no_tmp s T
        · split
          · exact dropTmpDir_no_tmp _ T
          · exact installAliasStep_no_tmp d T _
      · split
        · exact dropTmpDir_no_tmp s T
        · exact installAliasStep_no_tmp d T _

theorem installDownloadLoop_no_tmp (o : InstallOracle) (d : Bool) (T : List Char) :
    ∀ (n k : Nat) (s : Store),
      lookupE (installDownloadLoop o d T n k s).2 (tmpName T) = none := by
  intro n
  induction n with
  | zero =>
    intro k s
    unfold installDownloadLoop
    split
    · exact dropTmpDir_no_tmp s T
    · split
      · exact dropTmpDir_no_tmp s T
      · exact installExtractAdvance_no_tmp o d T (k + 1) s
  | succ nn ih =>
    intro k s
    unfold installDownloadLoop
    split
    · exact dropTmpDir_no_tmp s T
    · split
      · exact dropTmpDir_no_tmp s T
      · exact ih (k + 1) s

theorem installExtractAdvance_before_move (o : InstallOracle) (d : Bool)
    (T : List Char) (k : Nat) (s : Store)
    (h : (∃ c, o.cancelAt = some c ∧ c ≤ k) ∨ o.extractOk = false) :
    (installExtractAdvance o d T k s).1 ≠ .ok ∧
    lookupE (installExtractAdvance o d T k s).2 T = lookupE s T := by
  unfold installExtractAdvance
  by_cases hc : isCancelledAtStep o k = true
  · rw [if_pos hc]
    exact ⟨fun hcon => InstallResult.noConfusion hcon, lookupE_dropTmpDir s T⟩
  · rw [if_neg hc]
    have hx : o.extractOk = false := by
      rcases h with ⟨c, hc1, hc2⟩ | hx
      · exfalso
        apply hc
        unfold isCancelledAtStep
        rw [hc1]
        simpa using hc2
      · exact hx
    rw [if_pos hx]
    exact ⟨fun hcon => InstallResult.noConfusion hcon, lookupE_dropTmpDir s T⟩

theorem installDownloadLoop_before_move (o : InstallOracle) (d : Bool)
    (T : List Char) :
    ∀ (n k : Nat) (s : Store),
      ((∃ c, o.cancelAt = some c ∧ c ≤ k + n + 1) ∨
       (∃ i, o.chunkFail = some i ∧ k ≤ i ∧ i < k + n) ∨
       o.verifyOk = false ∨ o.extractOk = false) →
      (installDownloadLoop o d T n k s).1 ≠ .ok ∧
      lookupE (installDownloadLoop o d T n k s).2 T = lookupE s T := by
  intro n
  induction n with
  | zero =>
    intro k s h
    unfold installDownloadLoop
    by_cases hc : isCancelledAtStep o k = true
    · rw [if_pos hc]
      exact ⟨fun hcon => InstallResult.noConfusion hcon, lookupE_dropTmpDir s T⟩
    · rw [if_neg hc]
      by_cases hv : o.verifyOk = false
      · rw [if_pos hv]
        exact ⟨fun hcon => InstallResult.noConfusion hcon, lookupE_dropTmpDir s T⟩
      · rw [if_neg hv]
        apply installExtractAdvance_before_move
        rcases h with ⟨c, h1, h2⟩ | ⟨i, h1, h2, h3⟩ | hvv | hx
        · exact Or.inl ⟨c, h1, by omega⟩
        · exfalso; omega
        · exact absurd hvv hv
        · exact Or.inr hx
  | succ nn ih =>
    intro k s h
    unfold installDownloadLoop
    by_cases hc : isCancelledAtStep o k = true
    · rw [if_pos hc]
      exact ⟨fun hcon => InstallResult.noConfusion hcon, lookupE_dropTmpDir s T⟩
    · rw [if_neg hc]
      by_cases hf : o.chunkFail = some k
      · rw [if_pos hf]
        exact ⟨fun hcon => InstallResult.noConfusion hcon, lookupE_dropTmpDir s T⟩
      · rw [if_neg hf]
        apply ih (k + 1) s
        rcases h with ⟨c, h1, h2⟩ | ⟨i, h1, h2, h3⟩ | hv | hx
        · exact Or.inl ⟨c, h1, by omega⟩
        · refine Or.inr (Or.inl ⟨i, h1, ?_, by omega⟩)
          rcases Nat.eq_or_lt_of_le h2 with he | hl
          · exfalso
            apply hf
            rw [he]
            exact h1
          · omega
        · exact Or.inr (Or.inr (Or.inl hv))
        · exact Or.inr (Or.inr (Or.inr hx))

/-- Claim C1 (amended): for every install attempt of tag `T` from a
state whose scratch name `.tmp.T` is unoccupied, and every
failure/cancellation pattern: (1) after the operation returns there is
no entry at `<tool_dir>/.tmp.T` (whatever the outcome — the scratch is
also consumed on success); (2) if the failure or cancellation strikes
during download, hash verification or extraction — that is, before the
move-into-place block of `on_extracted` — the install does not report
success and `<tool_dir>/T` is exactly as it was before the call.  (The
claim as stated extends (2) to failures *in* the move step; the
counterexample shows a failing rename during an update install that
loses the pre-existing `T`.) -/
theorem install_cleanup_and_preservation (o : InstallOracle)
    (update defaultFlag : Bool) (T : List Char) (store : Store)
    (hclean : lookupE store (tmpName T) = none) :
    lookupE (runInstall o update defaultFlag T store).2 (tmpName T) = none ∧
    (failsBeforeMove o →
      (runInstall o update defaultFlag T store).1 ≠ .ok ∧
      lookupE (runInstall o update defaultFlag T store).2 T = lookupE store T) := by
  unfold runInstall
  by_cases h1 : update = false ∧ pathExists store T = true
  · rw [if_pos h1]
    exact ⟨hclean, fun _ => ⟨fun hcon => InstallResult.noConfusion hcon, rfl⟩⟩
  · rw [if_neg h1]
    by_cases h2 : pathExists store (tmpName T) = true
    · rw [if_pos h2]
      exact ⟨hclean, fun _ => ⟨fun hcon => InstallResult.noConfusion hcon, rfl⟩⟩
    · rw [if_neg h2]
      by_cases h3 : o.startOk = false
      · rw [if_pos h3]
        exact ⟨hclean, fun _ => ⟨fun hcon => InstallResult.noConfusion hcon, rfl⟩⟩
      · rw [if_neg h3]
        constructor
        · exact installDownloadLoop_no_tmp o defaultFlag T o.chunkCount 0 _
        · intro hfail
          have hs0 : lookupE (setEntry store (tmpName T) (.dir 0)) T
              = lookupE store T :=
            lookupE_setEntry_ne store _ (tmpName_ne T)
          have hidx : (∃ c, o.cancelAt = some c ∧ c ≤ 0 + o.chunkCount + 1) ∨
              (∃ i, o.chunkFail = some i ∧ 0 ≤ i ∧ i < 0 + o.chunkCount) ∨
              o.verifyOk = false ∨ o.extractOk = false := by
            rcases hfail with ⟨c, hc1, hc2⟩ | ⟨i, hi1, hi2⟩ | hv | hx
            · exact Or.inl ⟨c, hc1, by omega⟩
            · exact Or.inr (Or.inl ⟨i, hi1, by omega, by omega⟩)
            · exact Or.inr (Or.inr (Or.inl hv))
            · exact Or.inr (Or.inr (Or.inr hx))
          have hres := installDownloadLoop_before_move o defaultFlag T
            o.chunkCount 0 (setEntry store (tmpName T) (.dir 0)) hidx
          exact ⟨hres.1, hres.2.trans hs0⟩

/-- Oracle of an update install whose rename into place fails after the
pre-existing target was removed (everything earlier succeeds). -/
def c1RenameFailOracle : InstallOracle :=
  ⟨true, 1, none, true, true, true, false, none, 7⟩

/-- Counterexample to C1 as stated: an update install of `v1` over an
existing install, failing at the rename into place.  The install fails
and the scratch is gone, but `<tool_dir>/v1` — present before the call —
was removed by `on_extracted` and not restored, so `T` is not "exactly
as it was before the call". -/
theorem install_failure_can_lose_target :
    (runInstall c1RenameFailOracle true false "v1".toList
        [("v1".toList, FsEntry.dir 3)]).1 = .err ∧
    lookupE (runInstall c1RenameFailOracle true false "v1".toList
        [("v1".toList, FsEntry.dir 3)]).2 "v1".toList = none ∧
    lookupE [("v1".toList, FsEntry.dir 3)] "v1".toList = some (FsEntry.dir 3) :=
  ⟨by decide, by decide, by decide⟩

/-- Oracle of an install whose hash verification fails. -/
def c1VerifyFailOracle : InstallOracle :=
  ⟨true, 2, none, false, true, true, true, none, 7⟩

/-- Witness for C1 (amended) at a concrete failing install: hash
verification fails during an update install of `v1`; the scratch is
absent afterwards and the pre-existing install is untouched. -/
theorem install_cleanup_and_preservation_witness :
    lookupE (runInstall c1VerifyFailOracle true false "v1".toList
        [("v1".toList, FsEntry.dir 3)]).2 (tmpName "v1".toList) = none ∧
    ((runInstall c1VerifyFailOracle true false "v1".toList
        [("v1".toList, FsEntry.dir 3)]).1 ≠ .ok ∧
      lookupE (runInstall c1VerifyFailOracle true false "v1".toList
          [("v1".toList, FsEntry.dir 3)]).2 "v1".toList =
        lookupE [("v1".toList, FsEntry.dir 3)] "v1".toList) := by
  have h := install_cleanup_and_preservation c1VerifyFailOracle true false
    "v1".toList [("v1".toList, FsEntry.dir 3)] rfl
  exact ⟨h.1, h.2 (Or.inr (Or.inr (Or.inl rfl)))⟩

end Avm
